import Mathlib

/-!
# Verification of the fb-msg-analysis loader and query functions

Shallow embedding of `src/msg-analysis/models.py` and `src/main.py`.

Modelling conventions:
* Python `None` / an absent JSON field is `Option.none`; a raw JSON message
  record is `RawMessage` with the optional fields of §4.3 as `Option` fields
  and the required fields (`sender_name`, `timestamp_ms`) as plain fields.
  The `type` field is kept optional because `__load_message` reads it with
  `message_data["type"]`, which raises `KeyError` when it is absent.
* A Python exception is an explicit `PyErr` value; functions that can raise
  return the (possibly partially mutated) state together with the error,
  mirroring in-place mutation plus exception propagation.
* An `FBPerson` reference held by a chat is represented by the person's
  name: persons are unique by name in the registry, a person's name never
  changes, and the code only ever reads `.name` through these references.
  An `FBChat` reference is a `ChatRef`: which registry list it lives in and
  its index there.
* `datetime.datetime.fromtimestamp(timestamp / 1000.0)` is injectively
  determined by the raw millisecond value, so dates are carried as the raw
  `timestamp_ms` integer.
* Python's in-place `list.sort()` inside `find_chat` is modelled by
  returning the sorted list as an extra component; `pySorted` is insertion
  sort by `≤` on strings, agreeing with `sorted` on the string lists used.
-/

/-- Error values standing for the Python exceptions the loader can raise. -/
inductive PyErr where
  | keyError (key : String)
  | attributeError
deriving DecidableEq

/-- Raw JSON photo record `{uri, creation_timestamp}`. -/
structure RawPhoto where
  uri : String
  creation_timestamp : Int
deriving DecidableEq

/-- Raw JSON video record `{uri, creation_timestamp, thumbnail: {uri}}`. -/
structure RawVideo where
  uri : String
  creation_timestamp : Int
  thumbnail_uri : String
deriving DecidableEq

/-- Raw JSON share record `{link?, share_text?}`. -/
structure RawShare where
  link : Option String
  share_text : Option String
deriving DecidableEq

/-- Raw JSON reaction record `{actor, reaction}`. -/
structure RawReaction where
  actor : String
  reaction : String
deriving DecidableEq

/-- One raw message record of the `messages` array (see spec §6). -/
structure RawMessage where
  sender_name : String
  timestamp_ms : Int
  type : Option String
  content : Option String
  photos : Option (List RawPhoto)
  videos : Option (List RawVideo)
  share : Option RawShare
  reactions : Option (List RawReaction)
deriving DecidableEq

/-- One deserialized conversation-export document. The `participants`
array of `{name}` objects is carried as the list of names. -/
structure RawDocument where
  participants : List String
  title : String
  thread_type : Option String
  messages : List RawMessage
deriving DecidableEq

/-- `FBPhoto.__init__`: the date is carried as the raw millisecond value. -/
structure FBPhoto where
  uri : String
  timestamp_ms : Int
deriving DecidableEq

/-- `FBVideo.__init__`. -/
structure FBVideo where
  uri : String
  timestamp_ms : Int
  thumbnail : String
deriving DecidableEq

/-- `FBShare.__init__`. -/
structure FBShare where
  link : Option String
  text : Option String
deriving DecidableEq

/-- `FBReaction.__init__`: `actor` is the resolved person (`None` when
`find_person` failed), represented by the person's name. -/
structure FBReaction where
  actor : Option String
  reaction : String
deriving DecidableEq

/-- `FBTypeOfMsg` enumeration. -/
inductive FBTypeOfMsg where
  | Unknown
  | Generic
  | Share
deriving DecidableEq

/-- `fb_message_type_switch`: lookup in `{'Generic': Generic, 'Share': Share}`
with default `Unknown`. -/
def fb_message_type_switch (argument : String) : FBTypeOfMsg :=
  if argument = "Generic" then FBTypeOfMsg.Generic
  else if argument = "Share" then FBTypeOfMsg.Share
  else FBTypeOfMsg.Unknown

/-- `FBMessage`, with each field given the type of the value the code
actually stores there: `__load_message` passes the raw `sender_name`
string as `sender` and the raw reaction records as `reactions`. -/
structure FBMessage where
  sender : String
  timestamp_ms : Int
  type : FBTypeOfMsg
  content : Option String
  photos : Option (List FBPhoto)
  videos : Option (List FBVideo)
  share : Option FBShare
  reactions : List RawReaction
deriving DecidableEq

/-- `FBMessage.__init__`: the only defaulted computation is
`if reactions is None: reactions = []`. -/
def FBMessage.init (sender : String) (timestamp_ms : Int) (type_of_msg : FBTypeOfMsg)
    (content : Option String) (photos : Option (List FBPhoto))
    (videos : Option (List FBVideo)) (share : Option FBShare)
    (reactions : Option (List RawReaction)) : FBMessage :=
  { sender := sender
    timestamp_ms := timestamp_ms
    type := type_of_msg
    content := content
    photos := photos
    videos := videos
    share := share
    reactions := reactions.getD [] }

/-- `FBChat`: participants are person references, carried by name. -/
structure FBChat where
  title : String
  participants : List String
  messages : List FBMessage
deriving DecidableEq

/-- First element of `l` equal to `n` (linear scan). -/
def findFirstName : List String → String → Option String
  | [], _ => none
  | p :: rest, n => if p = n then some p else findFirstName rest n

/-- `FBChat.find_participant`: linear scan of the participants comparing
`participant.name == name`. -/
def FBChat.find_participant (chat : FBChat) (name : String) : Option String :=
  findFirstName chat.participants name

/-- `FBChat.add_messages`: append each message whose sender is a current
participant; silently skip the others. -/
def FBChat.add_messages (chat : FBChat) (messages : List FBMessage) : FBChat :=
  match messages with
  | [] => chat
  | msg :: rest =>
    (if (chat.find_participant msg.sender).isSome
     then { chat with messages := chat.messages ++ [msg] }
     else chat).add_messages rest

/-- Reference to a chat object: the registry list it lives in
(`isGroup = true` for `group_chats`) and its index there. -/
structure ChatRef where
  isGroup : Bool
  idx : Nat
deriving DecidableEq

/-- Python dict assignment `d[k] = v` on an insertion-ordered dict:
overwrite in place when the key exists, else append. -/
def dictInsert (d : List (String × ChatRef)) (k : String) (v : ChatRef) :
    List (String × ChatRef) :=
  if d.any (fun e => e.1 = k) then
    d.map (fun e => if e.1 = k then (k, v) else e)
  else d ++ [(k, v)]

/-- `FBPerson`: the two title-keyed chat dicts hold chat references. -/
structure FBPerson where
  name : String
  chats : List (String × ChatRef)
  group_chats : List (String × ChatRef)
deriving DecidableEq

/-- `FBPerson.add_chat`: insert `chat` into the appropriate dict keyed by
its title, guarded by `chat.find_participant(self.name)`. The passed
`chat` value is the current state of the referenced chat object. -/
def FBPerson.add_chat (person : FBPerson) (chat : FBChat) (ref : ChatRef)
    (group_chat : Bool) : FBPerson :=
  if (chat.find_participant person.name).isSome then
    if group_chat then
      { person with group_chats := dictInsert person.group_chats chat.title ref }
    else
      { person with chats := dictInsert person.chats chat.title ref }
  else person

/-- `FBMetadata`: the registry owning all persons and chats. -/
structure FBMetadata where
  persons : List FBPerson
  chats : List FBChat
  group_chats : List FBChat
deriving DecidableEq

/-- The empty registry built by `FBMetadata.__init__`. -/
def emptyMetadata : FBMetadata := ⟨[], [], []⟩

/-- First person of `ps` named `n` (linear scan). -/
def findFirstPerson : List FBPerson → String → Option FBPerson
  | [], _ => none
  | p :: rest, n => if p.name = n then some p else findFirstPerson rest n

/-- `FBMetadata.find_person`: linear scan by name. -/
def FBMetadata.find_person (st : FBMetadata) (name : String) : Option FBPerson :=
  findFirstPerson st.persons name

/-- Lexicographic `≤` by code point on character lists, as Python compares
strings. -/
def charListLe : List Char → List Char → Bool
  | [], _ => true
  | _ :: _, [] => false
  | a :: as, b :: bs =>
    if a = b then charListLe as bs
    else decide (a < b)

/-- Python's `≤` on strings: lexicographic by code point. -/
def strLe (a b : String) : Bool :=
  charListLe a.toList b.toList

/-- Python `str.lower()` (modelled, like `String.toLower`, as the ASCII
character-wise lowercase map). -/
def pyLower (s : String) : String :=
  String.mk (s.data.map Char.toLower)

/-- Python `list.sort()` / `sorted()` on a list of strings. -/
def pySorted (l : List String) : List String :=
  List.insertionSort (fun a b => strLe a b = true) l

/-- The scan of `find_chat`: first chat whose title matches and, when a
participant list is supplied, whose sorted participant names equal it;
a title match with a participant mismatch keeps scanning. -/
def findChatIdx (title : String) (participants : Option (List String)) :
    List FBChat → Nat → Option Nat
  | [], _ => none
  | chat :: rest, i =>
    if chat.title = title ∧
        (participants = none ∨ participants = some (pySorted chat.participants)) then
      some i
    else findChatIdx title participants rest (i + 1)

/-- `FBMetadata.find_chat`. The returned triple is (the registry, which the
method never assigns to; the found chat reference; the caller's
`participants` argument after the method's in-place `participants.sort()`). -/
def FBMetadata.find_chat (st : FBMetadata) (title : String)
    (participants : Option (List String)) (search_groups : Bool) :
    FBMetadata × Option ChatRef × Option (List String) :=
  let chatList := if search_groups then st.group_chats else st.chats
  let sortedPs := participants.map pySorted
  (st, (findChatIdx title sortedPs chatList 0).map (fun i => ChatRef.mk search_groups i),
    sortedPs)

/-- `FBMetadata.__load_people`: append a fresh person for each name not yet
registered. -/
def FBMetadata.load_people (st : FBMetadata) (participants_data : List String) :
    FBMetadata :=
  match participants_data with
  | [] => st
  | name :: rest =>
    (if (st.find_person name).isSome then st
     else { st with persons := st.persons ++ [FBPerson.mk name [] []] }).load_people rest

/-- The `FBReaction` list built by `__load_message` lines 109–112 (and then
discarded: the assignment back into `possible_data` is missing). -/
def builtReactions (st : FBMetadata) (rs : List RawReaction) : List FBReaction :=
  rs.map (fun r => FBReaction.mk ((st.find_person r.actor).map FBPerson.name) r.reaction)

/-- The message value `__load_message` constructs when the `type` key is
present with value `t`. -/
def convertMessageOk (m : RawMessage) (t : String) : FBMessage :=
  FBMessage.init m.sender_name m.timestamp_ms (fb_message_type_switch t)
    m.content
    (m.photos.map (fun l => l.map (fun p => FBPhoto.mk p.uri p.creation_timestamp)))
    (m.videos.map (fun l => l.map (fun v => FBVideo.mk v.uri v.creation_timestamp v.thumbnail_uri)))
    (m.share.map (fun s => FBShare.mk s.link s.share_text))
    m.reactions

/-- Lines 90–130 of `__load_message`: build `possible_data`, convert photos,
videos and share, build (and drop) the `FBReaction` list, then construct the
`FBMessage`; `message_data["type"]` raises `KeyError` when absent. -/
def convertMessage (st : FBMetadata) (message_data : RawMessage) :
    Except PyErr FBMessage :=
  let _dead := message_data.reactions.map (fun rs => builtReactions st rs)
  match message_data.type with
  | none => Except.error (PyErr.keyError "type")
  | some t => Except.ok (convertMessageOk message_data t)

/-- Modify the element at index `i` (no-op when out of range). -/
def listModify {α : Type} (f : α → α) : Nat → List α → List α
  | _, [] => []
  | 0, a :: rest => f a :: rest
  | Nat.succ j, a :: rest => a :: listModify f j rest

/-- Dereference a chat reference (default dummy chat when dangling). -/
def FBMetadata.getChat (st : FBMetadata) (r : ChatRef) : FBChat :=
  (if r.isGroup then st.group_chats else st.chats).getD r.idx (FBChat.mk "" [] [])

/-- Mutate the chat object a reference points to. -/
def FBMetadata.updateChat (st : FBMetadata) (r : ChatRef) (f : FBChat → FBChat) :
    FBMetadata :=
  if r.isGroup then { st with group_chats := listModify f r.idx st.group_chats }
  else { st with chats := listModify f r.idx st.chats }

/-- `FBMetadata.__load_message`: convert the record and hand the result to
`chat_ref.add_messages([message])`. The `KeyError` on a missing `type` key
fires before the chat is touched. -/
def FBMetadata.load_message (st : FBMetadata) (message_data : RawMessage)
    (chat_ref : ChatRef) : Except PyErr FBMetadata :=
  match convertMessage st message_data with
  | Except.error e => Except.error e
  | Except.ok message =>
    Except.ok (st.updateChat chat_ref (fun c => c.add_messages [message]))

/-- The `for msg in json_data['messages']` loop of `__load_chat`: stop at the
first exception, keeping the mutations already applied. -/
def loadMessagesAux (chat_ref : ChatRef) :
    FBMetadata → List RawMessage → FBMetadata × Option PyErr
  | st, [] => (st, none)
  | st, m :: rest =>
    match st.load_message m chat_ref with
    | Except.error e => (st, some e)
    | Except.ok st' => loadMessagesAux chat_ref st' rest

/-- Apply `f` to the first person named `n`; `none` when nobody is named `n`
(Python would then call a method on `None` and raise `AttributeError`). -/
def updateFirst (n : String) (f : FBPerson → FBPerson) :
    List FBPerson → Option (List FBPerson)
  | [] => none
  | p :: rest =>
    if p.name = n then some (f p :: rest)
    else (updateFirst n f rest).map (fun l => p :: l)

/-- The `for participant in participants` loop of `__load_chat`:
`self.find_person(participant).add_chat(chat, is_group_chat)`. -/
def addChatLoop (r : ChatRef) (g : Bool) :
    FBMetadata → List String → FBMetadata × Option PyErr
  | st, [] => (st, none)
  | st, n :: rest =>
    match updateFirst n (fun p => p.add_chat (st.getChat r) r g) st.persons with
    | none => (st, some PyErr.attributeError)
    | some ps => addChatLoop r g { st with persons := ps } rest

/-- Resolve every name through the registry, keeping the found person's
name; `none` as soon as one lookup fails. -/
def resolveAll (st : FBMetadata) : List String → Option (List String)
  | [] => some []
  | n :: rest =>
    match st.find_person n with
    | none => none
    | some p => (resolveAll st rest).map (fun l => p.name :: l)

/-- Messages loop followed by the participant `add_chat` loop; an exception
in the former aborts before the latter runs. -/
def finishLoadChat (st : FBMetadata) (r : ChatRef) (g : Bool)
    (msgs : List RawMessage) (names : List String) :
    FBMetadata × Except PyErr ChatRef :=
  match loadMessagesAux r st msgs with
  | (st1, some e) => (st1, Except.error e)
  | (st1, none) =>
    match addChatLoop r g st1 names with
    | (st2, some e) => (st2, Except.error e)
    | (st2, none) => (st2, Except.ok r)

/-- `FBMetadata.__load_chat`. `json_data['thread_type']` raises `KeyError`
when the key is absent. The returned `ChatRef` names the chat the document
was resolved to. When the chat is new, its participant references are the
registry lookups of the (by now in-place sorted) participant names; an
unregistered name is reported as `AttributeError` up front — Python would
store `None` in the participant list and only crash on the first attribute
access through it, a state unreachable through `from_entry`, which always
registers every participant first. -/
def FBMetadata.load_chat (st : FBMetadata) (json_data : RawDocument) :
    FBMetadata × Except PyErr ChatRef :=
  match json_data.thread_type with
  | none => (st, Except.error (PyErr.keyError "thread_type"))
  | some tt =>
    let is_group_chat : Bool := if tt = "Regular" then false else true
    let res := st.find_chat json_data.title (some json_data.participants) is_group_chat
    let participants := res.2.2.getD []
    match res.2.1 with
    | some r => finishLoadChat st r is_group_chat json_data.messages participants
    | none =>
      match resolveAll st participants with
      | none => (st, Except.error PyErr.attributeError)
      | some names =>
        let chat := FBChat.mk json_data.title names []
        let r : ChatRef :=
          ChatRef.mk is_group_chat
            (if is_group_chat then st.group_chats.length else st.chats.length)
        let st' :=
          if is_group_chat then { st with group_chats := st.group_chats ++ [chat] }
          else { st with chats := st.chats ++ [chat] }
        finishLoadChat st' r is_group_chat json_data.messages participants

/-- `FBMetadata.from_entry` on an already-deserialized document:
`__load_people` then `__load_chat`. -/
def FBMetadata.from_entry (st : FBMetadata) (doc : RawDocument) :
    FBMetadata × Except PyErr ChatRef :=
  (st.load_people doc.participants).load_chat doc

/-- Loading a sequence of entries (`create_metadata`): an exception aborts
the run, keeping the mutations of the earlier, successful loads. -/
def loadEntries : FBMetadata → List RawDocument → FBMetadata
  | st, [] => st
  | st, d :: ds =>
    match st.from_entry d with
    | (st', Except.error _) => st'
    | (st', Except.ok _) => loadEntries st' ds

/-- Does `needle` stand at the very front of `hay`? -/
def strStarts : List Char → List Char → Bool
  | [], _ => true
  | _ :: _, [] => false
  | a :: as, b :: bs => a = b && strStarts as bs

/-- Python's substring operator `needle in hay` on the character lists. -/
def strSubList (needle : List Char) : List Char → Bool
  | [] => strStarts needle []
  | hay@(_ :: rest) => strStarts needle hay || strSubList needle rest

/-- Python `needle in hay` on strings. -/
def pyIn (needle hay : String) : Bool :=
  strSubList needle.toList hay.toList

/-- The inner `for m in data['messages']` loop of `count_occurrence`, with
the running counter threaded through; `keyword` is already lowercased by
the caller when the toggle is on. -/
def countOccMsgs (keyword : String) (sender : Option String) (use_lowercase : Bool) :
    Nat → List RawMessage → Nat
  | result, [] => result
  | result, m :: rest =>
    let result :=
      match m.content with
      | none => result
      | some cont =>
        if (match sender with
            | none => true
            | some s => pyIn s m.sender_name) then
          if pyIn keyword (if use_lowercase then pyLower cont else cont) then result + 1
          else result
        else result
    countOccMsgs keyword sender use_lowercase result rest

/-- The outer `for data in json_data_inp` loop of `count_occurrence`. -/
def countOccDocs (keyword : String) (sender : Option String) (use_lowercase : Bool) :
    Nat → List RawDocument → Nat
  | result, [] => result
  | result, d :: rest =>
    countOccDocs keyword sender use_lowercase
      (countOccMsgs keyword sender use_lowercase result d.messages) rest

/-- `count_occurrence` from `src/main.py`. -/
def count_occurrence (json_data_inp : List RawDocument) (keyword : String)
    (sender : Option String) (use_lowercase : Bool) : Nat :=
  countOccDocs (if use_lowercase then pyLower keyword else keyword) sender
    use_lowercase 0 json_data_inp

/-- One message satisfies the keyword query (statement of the spec's §4.4):
the `content` field is present, the optional sender filter matches
`sender_name` as a substring, and the keyword occurs in the content as a
substring, both sides lowercased when the toggle is on. -/
def matchesKeyword (keyword : String) (sender : Option String)
    (use_lowercase : Bool) (m : RawMessage) : Bool :=
  match m.content with
  | none => false
  | some cont =>
    (match sender with
     | none => true
     | some s => pyIn s m.sender_name) &&
    pyIn (if use_lowercase then pyLower keyword else keyword)
      (if use_lowercase then pyLower cont else cont)

/-- The sender-is-a-participant invariant on one chat. -/
def chatInv (c : FBChat) : Prop :=
  ∀ m ∈ c.messages, ∃ p ∈ c.participants, p = m.sender

/-- The invariant over the whole registry. -/
def metaInv (st : FBMetadata) : Prop :=
  (∀ c ∈ st.chats, chatInv c) ∧ (∀ c ∈ st.group_chats, chatInv c)

/-- The block of messages one pass of the `__load_chat` message loop appends
to a chat whose participant list is `ps`: the records are converted in
order and kept when the sender is a participant, and a record missing its
`type` key aborts the loop. -/
def acceptedBlock (ps : List String) : List RawMessage → List FBMessage
  | [] => []
  | m :: rest =>
    match m.type with
    | none => []
    | some t =>
      (if (findFirstName ps (convertMessageOk m t).sender).isSome
       then [convertMessageOk m t] else []) ++ acceptedBlock ps rest

/-- A sample text message from Alice, carrying one reaction whose actor
name `Ghost` is not a registered person. -/
def sampleMsg : RawMessage :=
  { sender_name := "Alice"
    timestamp_ms := 1000
    type := some "Generic"
    content := some "Hello World"
    photos := none
    videos := none
    share := none
    reactions := some [RawReaction.mk "Ghost" "heart"] }

/-- A sample direct-chat document between Alice and Bob. -/
def sampleDoc : RawDocument :=
  { participants := ["Bob", "Alice"]
    title := "Bob"
    thread_type := some "Regular"
    messages := [sampleMsg] }

/-- The sample document with its `thread_type` field removed. -/
def sampleDocNoThread : RawDocument :=
  { sampleDoc with thread_type := none }

/-- The sample message with its `type` field removed. -/
def sampleMsgNoType : RawMessage :=
  { sampleMsg with type := none }

/-- A sample group-chat document. -/
def sampleGroupDoc : RawDocument :=
  { participants := ["Alice", "Bob", "Carol"]
    title := "friends"
    thread_type := some "RegularGroup"
    messages := [sampleMsg] }

/-- A message record with every optional field absent. -/
def bareMsg : RawMessage :=
  { sender_name := "Alice"
    timestamp_ms := 5
    type := some "Generic"
    content := none
    photos := none
    videos := none
    share := none
    reactions := none }

/-- The bare message with an explicitly empty photos array. -/
def emptyPhotosMsg : RawMessage :=
  { bareMsg with photos := some [] }

/-- The registry chat list selected by a group flag. -/
def sideList (st : FBMetadata) (g : Bool) : List FBChat :=
  if g then st.group_chats else st.chats

/-- The data of a chat that `find_chat` inspects: its title and its sorted
participant names. -/
def chatKey (c : FBChat) : String × List String :=
  (c.title, pySorted c.participants)

theorem charListLe_total : ∀ l₁ l₂ : List Char,
    charListLe l₁ l₂ = true ∨ charListLe l₂ l₁ = true := by
  intro l₁
  induction l₁ with
  | nil => intro l₂; left; rfl
  | cons a as ih =>
    intro l₂
    cases l₂ with
    | nil => right; rfl
    | cons b bs =>
      by_cases hab : a = b
      · subst hab
        simpa only [charListLe, if_pos rfl] using ih bs
      · have hba : ¬b = a := fun h => hab h.symm
        rcases lt_or_gt_of_ne hab with h | h
        · left; simp [charListLe, hab, h]
        · right; simp [charListLe, hba, h]

theorem charListLe_trans : ∀ l₁ l₂ l₃ : List Char,
    charListLe l₁ l₂ = true → charListLe l₂ l₃ = true → charListLe l₁ l₃ = true := by
  intro l₁
  induction l₁ with
  | nil => intro l₂ l₃ _ _; rfl
  | cons a as ih =>
    intro l₂ l₃ h₁ h₂
    cases l₂ with
    | nil => simp [charListLe] at h₁
    | cons b bs =>
      cases l₃ with
      | nil => simp [charListLe] at h₂
      | cons c cs =>
        by_cases hab : a = b <;> by_cases hbc : b = c
        · subst hab; subst hbc
          simp only [charListLe, if_pos rfl] at h₁ h₂ ⊢
          exact ih bs cs h₁ h₂
        · subst hab
          simp only [charListLe, if_neg hbc, decide_eq_true_eq] at h₂
          have hac : ¬a = c := ne_of_lt h₂
          simp [charListLe, hac, h₂]
        · subst hbc
          simp only [charListLe, if_neg hab, decide_eq_true_eq] at h₁
          simp [charListLe, hab, h₁]
        · simp only [charListLe, if_neg hab, decide_eq_true_eq] at h₁
          simp only [charListLe, if_neg hbc, decide_eq_true_eq] at h₂
          have hac' : a < c := lt_trans h₁ h₂
          have hac : ¬a = c := ne_of_lt hac'
          simp [charListLe, hac, hac']

theorem charListLe_antisymm : ∀ l₁ l₂ : List Char,
    charListLe l₁ l₂ = true → charListLe l₂ l₁ = true → l₁ = l₂ := by
  intro l₁
  induction l₁ with
  | nil =>
    intro l₂ _ h₂
    cases l₂ with
    | nil => rfl
    | cons b bs => simp [charListLe] at h₂
  | cons a as ih =>
    intro l₂ h₁ h₂
    cases l₂ with
    | nil => simp [charListLe] at h₁
    | cons b bs =>
      by_cases hab : a = b
      · subst hab
        simp only [charListLe, if_pos rfl] at h₁ h₂
        exact congrArg (a :: ·) (ih bs h₁ h₂)
      · have hba : ¬b = a := fun h => hab h.symm
        simp only [charListLe, if_neg hab, decide_eq_true_eq] at h₁
        simp only [charListLe, if_neg hba, decide_eq_true_eq] at h₂
        exact absurd h₂ (lt_asymm h₁)

theorem strLe_total (a b : String) : strLe a b = true ∨ strLe b a = true :=
  charListLe_total a.toList b.toList

theorem strLe_trans {a b c : String} (h₁ : strLe a b = true) (h₂ : strLe b c = true) :
    strLe a c = true :=
  charListLe_trans a.toList b.toList c.toList h₁ h₂

theorem strLe_antisymm {a b : String} (h₁ : strLe a b = true) (h₂ : strLe b a = true) :
    a = b :=
  String.toList_inj.mp (charListLe_antisymm a.toList b.toList h₁ h₂)

theorem pySorted_perm (l : List String) : (pySorted l).Perm l :=
  List.perm_insertionSort _ l

theorem pySorted_sorted (l : List String) :
    List.Sorted (fun a b => strLe a b = true) (pySorted l) := by
  haveI : IsTotal String (fun a b => strLe a b = true) := ⟨strLe_total⟩
  haveI : IsTrans String (fun a b => strLe a b = true) := ⟨fun _ _ _ => strLe_trans⟩
  exact List.sorted_insertionSort _ l

theorem pySorted_congr {l₁ l₂ : List String} (h : l₁.Perm l₂) :
    pySorted l₁ = pySorted l₂ := by
  haveI : IsAntisymm String (fun a b => strLe a b = true) := ⟨fun _ _ => strLe_antisymm⟩
  exact List.eq_of_perm_of_sorted (((pySorted_perm l₁).trans h).trans (pySorted_perm l₂).symm)
    (pySorted_sorted l₁) (pySorted_sorted l₂)

theorem pySorted_idem (l : List String) : pySorted (pySorted l) = pySorted l :=
  pySorted_congr (pySorted_perm l)

/-- C9: `find_chat` is order-independent in its `participants` argument:
permuting a non-`None` participant list leaves the returned chat unchanged,
because the candidate's sorted participant names are compared with the
sorted input list. -/
theorem claim_C9 (st : FBMetadata) (title : String) (l₁ l₂ : List String) (g : Bool)
    (h : l₁.Perm l₂) :
    (st.find_chat title (some l₁) g).2.1 = (st.find_chat title (some l₂) g).2.1 := by
  unfold FBMetadata.find_chat
  rw [Option.map_some', Option.map_some', pySorted_congr h]

/-- Witness for C9 at the spec's own example lists. -/
theorem claim_C9_witness :
    (emptyMetadata.find_chat "t" (some ["B", "A"]) false).2.1 =
      (emptyMetadata.find_chat "t" (some ["A", "B"]) false).2.1 :=
  claim_C9 emptyMetadata "t" ["B", "A"] ["A", "B"] false (by decide)

/-- C10: `find_chat` with a non-`None` participants argument sorts the
caller's list in place (the list component of the result is the sorted
permutation of the input), while the registry itself is untouched. -/
theorem claim_C10 (st : FBMetadata) (title : String) (l : List String) (g : Bool) :
    (st.find_chat title (some l) g).1 = st ∧
    (st.find_chat title (some l) g).2.2 = some (pySorted l) ∧
    (pySorted l).Perm l ∧
    List.Sorted (fun a b => strLe a b = true) (pySorted l) :=
  ⟨rfl, rfl, pySorted_perm l, pySorted_sorted l⟩

/-- C3 counterexample: on a record whose `type` key is absent, message
conversion raises `KeyError` instead of yielding the `Unknown` variant. -/
theorem claim_C3_cex :
    convertMessage emptyMetadata sampleMsgNoType = Except.error (PyErr.keyError "type") :=
  rfl

/-- C3 (amended): `fb_message_type_switch` is total over strings — `Generic`
and `Share` map to their variants and every other string to `Unknown`, and a
record carrying any `type` string converts without error to a message of
that mapped type — but a record whose `type` key is absent makes the loader
raise `KeyError` rather than produce `Unknown`. -/
theorem claim_C3 :
    fb_message_type_switch "Generic" = FBTypeOfMsg.Generic ∧
    fb_message_type_switch "Share" = FBTypeOfMsg.Share ∧
    (∀ argument : String, argument ≠ "Generic" → argument ≠ "Share" →
      fb_message_type_switch argument = FBTypeOfMsg.Unknown) ∧
    (∀ (st : FBMetadata) (m : RawMessage) (t : String), m.type = some t →
      convertMessage st m = Except.ok (convertMessageOk m t) ∧
      (convertMessageOk m t).type = fb_message_type_switch t) ∧
    (∀ (st : FBMetadata) (m : RawMessage), m.type = none →
      convertMessage st m = Except.error (PyErr.keyError "type")) := by
  refine ⟨rfl, rfl, ?_, ?_, ?_⟩
  · intro argument h₁ h₂
    simp [fb_message_type_switch, h₁, h₂]
  · intro st m t h
    constructor
    · simp [convertMessage, h]
    · rfl
  · intro st m h
    simp [convertMessage, h]

/-- Witness for C3 at a `Bogus` type string, a present `Generic` type, and
an absent type key. -/
theorem claim_C3_witness :
    fb_message_type_switch "Bogus" = FBTypeOfMsg.Unknown ∧
    convertMessage emptyMetadata sampleMsg = Except.ok (convertMessageOk sampleMsg "Generic") ∧
    convertMessage emptyMetadata sampleMsgNoType = Except.error (PyErr.keyError "type") :=
  ⟨claim_C3.2.2.1 "Bogus" (by decide) (by decide),
   (claim_C3.2.2.2.1 emptyMetadata sampleMsg "Generic" rfl).1,
   claim_C3.2.2.2.2 emptyMetadata sampleMsgNoType rfl⟩

/-- C5 counterexample: a document without a `thread_type` field is not
classified by any participant-count fallback — the load fails with
`KeyError` and the registry is left unchanged. -/
theorem claim_C5_cex :
    emptyMetadata.load_chat sampleDocNoThread =
      (emptyMetadata, Except.error (PyErr.keyError "thread_type")) :=
  rfl

/-- C5 (amended): for every document whose `thread_type` field is absent,
`__load_chat` raises `KeyError` before touching the registry; no
participant-count heuristic fallback exists. -/
theorem claim_C5 (st : FBMetadata) (doc : RawDocument) (h : doc.thread_type = none) :
    st.load_chat doc = (st, Except.error (PyErr.keyError "thread_type")) := by
  unfold FBMetadata.load_chat
  rw [h]

/-- Witness for C5 on a three-participant document lacking `thread_type`. -/
theorem claim_C5_witness :
    emptyMetadata.load_chat { sampleGroupDoc with thread_type := none } =
      (emptyMetadata, Except.error (PyErr.keyError "thread_type")) :=
  claim_C5 emptyMetadata { sampleGroupDoc with thread_type := none } rfl

/-- C7: optional fields absent from a raw record come out as `none` in the
constructed message, a present-but-empty photos array stays `some []`
(distinguishable from absent), and the reactions field defaults to the
empty list. -/
theorem claim_C7 (st : FBMetadata) (m : RawMessage) (t : String) (ht : m.type = some t) :
    convertMessage st m = Except.ok (convertMessageOk m t) ∧
    (m.content = none → (convertMessageOk m t).content = none) ∧
    (m.photos = none → (convertMessageOk m t).photos = none) ∧
    (m.videos = none → (convertMessageOk m t).videos = none) ∧
    (m.share = none → (convertMessageOk m t).share = none) ∧
    (m.photos = some [] → (convertMessageOk m t).photos = some []) ∧
    (m.reactions = none → (convertMessageOk m t).reactions = []) ∧
    (∀ rs, m.reactions = some rs → (convertMessageOk m t).reactions = rs) := by
  refine ⟨by simp [convertMessage, ht], ?_, ?_, ?_, ?_, ?_, ?_, ?_⟩
  · intro h; simp [convertMessageOk, FBMessage.init, h]
  · intro h; simp [convertMessageOk, FBMessage.init, h]
  · intro h; simp [convertMessageOk, FBMessage.init, h]
  · intro h; simp [convertMessageOk, FBMessage.init, h]
  · intro h; simp [convertMessageOk, FBMessage.init, h]
  · intro h; simp [convertMessageOk, FBMessage.init, h]
  · intro rs h; simp [convertMessageOk, FBMessage.init, h]

/-- Witness for C7 on a record with all optional fields absent, one with an
empty photos array, and one with a reactions array. -/
theorem claim_C7_witness :
    convertMessage emptyMetadata bareMsg = Except.ok (convertMessageOk bareMsg "Generic") ∧
    (convertMessageOk bareMsg "Generic").content = none ∧
    (convertMessageOk bareMsg "Generic").photos = none ∧
    (convertMessageOk bareMsg "Generic").videos = none ∧
    (convertMessageOk bareMsg "Generic").share = none ∧
    (convertMessageOk emptyPhotosMsg "Generic").photos = some [] ∧
    (convertMessageOk bareMsg "Generic").reactions = [] ∧
    (convertMessageOk sampleMsg "Generic").reactions = [RawReaction.mk "Ghost" "heart"] :=
  ⟨(claim_C7 emptyMetadata bareMsg "Generic" rfl).1,
   (claim_C7 emptyMetadata bareMsg "Generic" rfl).2.1 rfl,
   (claim_C7 emptyMetadata bareMsg "Generic" rfl).2.2.1 rfl,
   (claim_C7 emptyMetadata bareMsg "Generic" rfl).2.2.2.1 rfl,
   (claim_C7 emptyMetadata bareMsg "Generic" rfl).2.2.2.2.1 rfl,
   (claim_C7 emptyMetadata emptyPhotosMsg "Generic" rfl).2.2.2.2.2.1 rfl,
   (claim_C7 emptyMetadata bareMsg "Generic" rfl).2.2.2.2.2.2.1 rfl,
   (claim_C7 emptyMetadata sampleMsg "Generic" rfl).2.2.2.2.2.2.2
     [RawReaction.mk "Ghost" "heart"] rfl⟩

theorem listModify_length {α : Type} (f : α → α) :
    ∀ (i : Nat) (l : List α), (listModify f i l).length = l.length := by
  intro i l
  induction l generalizing i with
  | nil => cases i <;> rfl
  | cons a rest ih =>
    cases i with
    | zero => simp [listModify]
    | succ j => simp [listModify, ih]

theorem updateChat_persons (st : FBMetadata) (r : ChatRef) (f : FBChat → FBChat) :
    (st.updateChat r f).persons = st.persons := by
  unfold FBMetadata.updateChat
  split <;> rfl

theorem updateChat_group_of_direct (st : FBMetadata) (r : ChatRef) (f : FBChat → FBChat)
    (h : r.isGroup = false) : (st.updateChat r f).group_chats = st.group_chats := by
  simp [FBMetadata.updateChat, h]

theorem updateChat_chats_of_group (st : FBMetadata) (r : ChatRef) (f : FBChat → FBChat)
    (h : r.isGroup = true) : (st.updateChat r f).chats = st.chats := by
  simp [FBMetadata.updateChat, h]

theorem updateChat_chats_length (st : FBMetadata) (r : ChatRef) (f : FBChat → FBChat) :
    (st.updateChat r f).chats.length = st.chats.length := by
  unfold FBMetadata.updateChat
  split
  · rfl
  · simp [listModify_length]

theorem updateChat_groups_length (st : FBMetadata) (r : ChatRef) (f : FBChat → FBChat) :
    (st.updateChat r f).group_chats.length = st.group_chats.length := by
  unfold FBMetadata.updateChat
  split
  · simp [listModify_length]
  · rfl

theorem load_message_ok {st st' : FBMetadata} {m : RawMessage} {r : ChatRef}
    (h : st.load_message m r = Except.ok st') :
    ∃ msg, st' = st.updateChat r (fun c => c.add_messages [msg]) := by
  unfold FBMetadata.load_message convertMessage at h
  cases hty : m.type with
  | none => rw [hty] at h; exact absurd h (by simp)
  | some t =>
    rw [hty] at h
    simp only [Except.ok.injEq] at h
    exact ⟨convertMessageOk m t, h.symm⟩

theorem loadMessagesAux_persons (r : ChatRef) :
    ∀ (msgs : List RawMessage) (st : FBMetadata),
      (loadMessagesAux r st msgs).1.persons = st.persons := by
  intro msgs
  induction msgs with
  | nil => intro st; rfl
  | cons m rest ih =>
    intro st
    simp only [loadMessagesAux]
    cases hlm : st.load_message m r with
    | error e => rfl
    | ok st' =>
      obtain ⟨msg, rfl⟩ := load_message_ok hlm
      rw [ih, updateChat_persons]

theorem loadMessagesAux_group_of_direct (r : ChatRef) (hr : r.isGroup = false) :
    ∀ (msgs : List RawMessage) (st : FBMetadata),
      (loadMessagesAux r st msgs).1.group_chats = st.group_chats := by
  intro msgs
  induction msgs with
  | nil => intro st; rfl
  | cons m rest ih =>
    intro st
    simp only [loadMessagesAux]
    cases hlm : st.load_message m r with
    | error e => rfl
    | ok st' =>
      obtain ⟨msg, rfl⟩ := load_message_ok hlm
      rw [ih, updateChat_group_of_direct _ _ _ hr]

theorem loadMessagesAux_chats_of_group (r : ChatRef) (hr : r.isGroup = true) :
    ∀ (msgs : List RawMessage) (st : FBMetadata),
      (loadMessagesAux r st msgs).1.chats = st.chats := by
  intro msgs
  induction msgs with
  | nil => intro st; rfl
  | cons m rest ih =>
    intro st
    simp only [loadMessagesAux]
    cases hlm : st.load_message m r with
    | error e => rfl
    | ok st' =>
      obtain ⟨msg, rfl⟩ := load_message_ok hlm
      rw [ih, updateChat_chats_of_group _ _ _ hr]

theorem loadMessagesAux_chats_length (r : ChatRef) :
    ∀ (msgs : List RawMessage) (st : FBMetadata),
      (loadMessagesAux r st msgs).1.chats.length = st.chats.length := by
  intro msgs
  induction msgs with
  | nil => intro st; rfl
  | cons m rest ih =>
    intro st
    simp only [loadMessagesAux]
    cases hlm : st.load_message m r with
    | error e => rfl
    | ok st' =>
      obtain ⟨msg, rfl⟩ := load_message_ok hlm
      rw [ih, updateChat_chats_length]

theorem loadMessagesAux_groups_length (r : ChatRef) :
    ∀ (msgs : List RawMessage) (st : FBMetadata),
      (loadMessagesAux r st msgs).1.group_chats.length = st.group_chats.length := by
  intro msgs
  induction msgs with
  | nil => intro st; rfl
  | cons m rest ih =>
    intro st
    simp only [loadMessagesAux]
    cases hlm : st.load_message m r with
    | error e => rfl
    | ok st' =>
      obtain ⟨msg, rfl⟩ := load_message_ok hlm
      rw [ih, updateChat_groups_length]

theorem addChatLoop_chats (r : ChatRef) (g : Bool) :
    ∀ (names : List String) (st : FBMetadata),
      (addChatLoop r g st names).1.chats = st.chats ∧
      (addChatLoop r g st names).1.group_chats = st.group_chats := by
  intro names
  induction names with
  | nil => intro st; exact ⟨rfl, rfl⟩
  | cons n rest ih =>
    intro st
    simp only [addChatLoop]
    cases updateFirst n (fun p => p.add_chat (st.getChat r) r g) st.persons with
    | none => exact ⟨rfl, rfl⟩
    | some ps => exact ih _

theorem load_people_chats :
    ∀ (names : List String) (st : FBMetadata),
      (st.load_people names).chats = st.chats ∧
      (st.load_people names).group_chats = st.group_chats := by
  intro names
  induction names with
  | nil => intro st; exact ⟨rfl, rfl⟩
  | cons n rest ih =>
    intro st
    simp only [FBMetadata.load_people]
    split <;> exact ih _

theorem findChatIdx_lt (title : String) (ps : Option (List String)) :
    ∀ (l : List FBChat) (i j : Nat), findChatIdx title ps l i = some j →
      j < i + l.length ∧ i ≤ j := by
  intro l
  induction l with
  | nil => intro i j h; exact absurd h (by simp [findChatIdx])
  | cons c rest ih =>
    intro i j h
    simp only [findChatIdx] at h
    split at h
    · cases h
      simp only [List.length_cons]
      omega
    · obtain ⟨h₁, h₂⟩ := ih (i + 1) j h
      simp only [List.length_cons]
      omega

/-- What a successful `finishLoadChat` run yields: the resolved reference is
the one passed in, and the two chat lists keep their lengths and, on the
side the reference does not point to, their contents. -/
theorem finishLoadChat_ok {st st' : FBMetadata} {r r' : ChatRef} {g : Bool}
    {msgs : List RawMessage} {names : List String}
    (h : finishLoadChat st r g msgs names = (st', Except.ok r')) :
    r' = r ∧
    st'.chats.length = st.chats.length ∧
    st'.group_chats.length = st.group_chats.length ∧
    (r.isGroup = false → st'.group_chats = st.group_chats) ∧
    (r.isGroup = true → st'.chats = st.chats) := by
  unfold finishLoadChat at h
  cases hlm : loadMessagesAux r st msgs with
  | mk st1 err =>
    rw [hlm] at h
    cases err with
    | some e => exact absurd h (by simp)
    | none =>
      dsimp only at h
      cases hacl : addChatLoop r g st1 names with
      | mk st2 err2 =>
        rw [hacl] at h
        cases err2 with
        | some e => exact absurd h (by simp)
        | none =>
          simp only [Prod.mk.injEq, Except.ok.injEq] at h
          obtain ⟨rfl, rfl⟩ := h
          have hc := addChatLoop_chats r g names st1
          rw [hacl] at hc
          have h1 : st1 = (loadMessagesAux r st msgs).1 := by rw [hlm]
          refine ⟨rfl, ?_, ?_, ?_, ?_⟩
          · rw [hc.1, h1, loadMessagesAux_chats_length]
          · rw [hc.2, h1, loadMessagesAux_groups_length]
          · intro hr; rw [hc.2, h1, loadMessagesAux_group_of_direct r hr]
          · intro hr; rw [hc.1, h1, loadMessagesAux_chats_of_group r hr]

/-- C4: for every document load whose `thread_type` is present, the resolved
chat lives in the direct-chat list (and the group-chat list is untouched)
when `thread_type` is `Regular`, and in the group-chat list (direct list
untouched) for any other value. -/
theorem claim_C4 (st : FBMetadata) (doc : RawDocument) (tt : String)
    (st' : FBMetadata) (r : ChatRef)
    (htt : doc.thread_type = some tt)
    (h : st.from_entry doc = (st', Except.ok r)) :
    (tt = "Regular" →
      r.isGroup = false ∧ r.idx < st'.chats.length ∧ st'.group_chats = st.group_chats) ∧
    (tt ≠ "Regular" →
      r.isGroup = true ∧ r.idx < st'.group_chats.length ∧ st'.chats = st.chats) := by
  unfold FBMetadata.from_entry at h
  have hlp := load_people_chats doc.participants st
  generalize hst0 : st.load_people doc.participants = st0 at h hlp
  unfold FBMetadata.load_chat at h
  rw [htt] at h
  simp only [FBMetadata.find_chat] at h
  by_cases hreg : tt = "Regular"
  · subst hreg
    simp at h
    refine ⟨fun _ => ?_, fun hne => absurd rfl hne⟩
    cases hf : findChatIdx doc.title (some (pySorted doc.participants)) st0.chats 0 with
    | some i =>
      rw [hf] at h
      simp at h
      obtain ⟨rfl, hlen, _, hgr, _⟩ := finishLoadChat_ok h
      have hi := (findChatIdx_lt _ _ _ _ _ hf).1
      exact ⟨rfl, by dsimp only; omega, by rw [hgr rfl, hlp.2]⟩
    | none =>
      rw [hf] at h
      simp at h
      cases hres : resolveAll st0 (pySorted doc.participants) with
      | none => rw [hres] at h; exact absurd h (by simp)
      | some names =>
        rw [hres] at h
        dsimp only at h
        obtain ⟨rfl, hlen, _, hgr, _⟩ := finishLoadChat_ok h
        refine ⟨rfl, ?_, ?_⟩
        · rw [hlen]
          simp [hlp.1]
        · rw [hgr rfl]
          simp [hlp.2]
  · rw [if_neg hreg] at h
    simp at h
    refine ⟨fun heq => absurd heq hreg, fun _ => ?_⟩
    cases hf : findChatIdx doc.title (some (pySorted doc.participants)) st0.group_chats 0 with
    | some i =>
      rw [hf] at h
      simp at h
      obtain ⟨rfl, _, hlen, _, hct⟩ := finishLoadChat_ok h
      have hi := (findChatIdx_lt _ _ _ _ _ hf).1
      exact ⟨rfl, by dsimp only; omega, by rw [hct rfl, hlp.1]⟩
    | none =>
      rw [hf] at h
      simp at h
      cases hres : resolveAll st0 (pySorted doc.participants) with
      | none => rw [hres] at h; exact absurd h (by simp)
      | some names =>
        rw [hres] at h
        dsimp only at h
        obtain ⟨rfl, _, hlen, _, hct⟩ := finishLoadChat_ok h
        refine ⟨rfl, ?_, ?_⟩
        · rw [hlen]
          simp [hlp.2]
        · rw [hct rfl]
          simp [hlp.1]

/-- Witness for C4 on a `Regular` document and a `RegularGroup` document. -/
theorem claim_C4_witness :
    ((ChatRef.mk false 0).isGroup = false ∧
      (ChatRef.mk false 0).idx < (emptyMetadata.from_entry sampleDoc).1.chats.length ∧
      (emptyMetadata.from_entry sampleDoc).1.group_chats = emptyMetadata.group_chats) ∧
    ((ChatRef.mk true 0).isGroup = true ∧
      (ChatRef.mk true 0).idx < (emptyMetadata.from_entry sampleGroupDoc).1.group_chats.length ∧
      (emptyMetadata.from_entry sampleGroupDoc).1.chats = emptyMetadata.chats) :=
  ⟨(claim_C4 emptyMetadata sampleDoc "Regular" _ (ChatRef.mk false 0) rfl rfl).1 rfl,
   (claim_C4 emptyMetadata sampleGroupDoc "RegularGroup" _ (ChatRef.mk true 0) rfl rfl).2
     (by decide)⟩

theorem countOccMsgs_eq (kw : String) (sender : Option String) (ul : Bool) :
    ∀ (msgs : List RawMessage) (acc : Nat),
      countOccMsgs (if ul then pyLower kw else kw) sender ul acc msgs =
        acc + (msgs.filter (matchesKeyword kw sender ul)).length := by
  intro msgs
  induction msgs with
  | nil => intro acc; simp [countOccMsgs]
  | cons m rest ih =>
    intro acc
    cases sender with
    | none =>
      cases hc : m.content with
      | none =>
        have hm : matchesKeyword kw none ul m = false := by
          simp [matchesKeyword, hc]
        simp only [countOccMsgs, hc, List.filter_cons, hm]
        rw [ih]
        simp
      | some cont =>
        by_cases hk :
          pyIn (if ul then pyLower kw else kw) (if ul then pyLower cont else cont) = true
        · have hm : matchesKeyword kw none ul m = true := by
            simp [matchesKeyword, hc, hk]
          simp only [countOccMsgs, hc, List.filter_cons, hm]
          simp only [if_pos rfl, if_pos hk, if_true]
          rw [ih]
          simp only [List.length_cons]
          ring
        · have hm : matchesKeyword kw none ul m = false := by
            simp [matchesKeyword, hc]
            simpa using hk
          simp only [countOccMsgs, hc, List.filter_cons, hm]
          simp only [if_pos rfl, if_neg hk, if_true]
          rw [ih]
          simp
    | some s =>
      cases hc : m.content with
      | none =>
        have hm : matchesKeyword kw (some s) ul m = false := by
          simp [matchesKeyword, hc]
        simp only [countOccMsgs, hc, List.filter_cons, hm]
        rw [ih]
        simp
      | some cont =>
        by_cases hs : pyIn s m.sender_name = true
        · by_cases hk :
            pyIn (if ul then pyLower kw else kw) (if ul then pyLower cont else cont) = true
          · have hm : matchesKeyword kw (some s) ul m = true := by
              simp [matchesKeyword, hc, hs, hk]
            simp only [countOccMsgs, hc, List.filter_cons, hm]
            simp only [if_pos hs, if_pos hk, if_true]
            rw [ih]
            simp only [List.length_cons]
            ring
          · have hm : matchesKeyword kw (some s) ul m = false := by
              simp [matchesKeyword, hc, hs]
              simpa using hk
            simp only [countOccMsgs, hc, List.filter_cons, hm]
            simp only [if_pos hs, if_neg hk, if_true]
            rw [ih]
            simp
        · have hm : matchesKeyword kw (some s) ul m = false := by
            simp only [matchesKeyword, hc, Bool.and_eq_false_iff]
            left
            simpa using hs
          simp only [countOccMsgs, hc, List.filter_cons, hm]
          simp only [if_neg hs]
          rw [ih]
          simp

theorem countOccDocs_eq (kw : String) (sender : Option String) (ul : Bool) :
    ∀ (docs : List RawDocument) (acc : Nat),
      countOccDocs (if ul then pyLower kw else kw) sender ul acc docs =
        acc + (((docs.map RawDocument.messages).flatten).filter
          (matchesKeyword kw sender ul)).length := by
  intro docs
  induction docs with
  | nil => intro acc; simp [countOccDocs, countOccMsgs]
  | cons d rest ih =>
    intro acc
    simp only [countOccDocs, List.map_cons, List.flatten_cons, List.filter_append]
    rw [countOccMsgs_eq, ih]
    simp only [List.length_append]
    omega

/-- C8: `count_occurrence` returns the number of messages across all
documents whose present `content` contains the keyword as a substring,
with the optional sender filter applied as a substring match on
`sender_name`, lowercasing keyword and content when the toggle is on. -/
theorem claim_C8 (docs : List RawDocument) (kw : String) (sender : Option String)
    (ul : Bool) :
    count_occurrence docs kw sender ul =
      (((docs.map RawDocument.messages).flatten).filter
        (matchesKeyword kw sender ul)).length := by
  unfold count_occurrence
  rw [countOccDocs_eq]
  omega

/-- C1 (code bug): loading `sampleDoc` stores, in the message placed into
the chat, the raw `sender_name` string and the raw reaction records —
not the Registry-resolved `FBPerson` and the converted `FBReaction`
entities that `FBMessage`'s and `FBReaction`'s own docstrings require; the
`FBReaction` list built at `models.py` lines 109–112 (here
`builtReactions`, which resolves `Ghost` to `None`) is discarded. -/
theorem claim_C1_bug :
    ((emptyMetadata.from_entry sampleDoc).1.getChat (ChatRef.mk false 0)).messages =
      [{ sender := "Alice", timestamp_ms := 1000, type := FBTypeOfMsg.Generic,
         content := some "Hello World", photos := none, videos := none, share := none,
         reactions := [RawReaction.mk "Ghost" "heart"] }] ∧
    builtReactions (emptyMetadata.load_people sampleDoc.participants)
      [RawReaction.mk "Ghost" "heart"] = [FBReaction.mk none "heart"] :=
  ⟨rfl, rfl⟩

theorem add_messages_participants (l : List FBMessage) :
    ∀ c : FBChat, (c.add_messages l).participants = c.participants := by
  induction l with
  | nil => intro c; rfl
  | cons m rest ih =>
    intro c
    simp only [FBChat.add_messages]
    by_cases h : (c.find_participant m.sender).isSome
    · rw [if_pos h]; exact ih _
    · rw [if_neg h]; exact ih _

theorem add_messages_title (l : List FBMessage) :
    ∀ c : FBChat, (c.add_messages l).title = c.title := by
  induction l with
  | nil => intro c; rfl
  | cons m rest ih =>
    intro c
    simp only [FBChat.add_messages]
    by_cases h : (c.find_participant m.sender).isSome
    · rw [if_pos h]; exact ih _
    · rw [if_neg h]; exact ih _

theorem add_messages_messages (l : List FBMessage) :
    ∀ c : FBChat, (c.add_messages l).messages =
      c.messages ++ l.filter (fun m => (c.find_participant m.sender).isSome) := by
  induction l with
  | nil => intro c; simp [FBChat.add_messages]
  | cons m rest ih =>
    intro c
    simp only [FBChat.add_messages, List.filter_cons]
    by_cases h : (c.find_participant m.sender).isSome
    · rw [if_pos h, ih]
      dsimp only [FBChat.find_participant]
      have h' : (findFirstName c.participants m.sender).isSome = true := h
      simp [h']
    · rw [if_neg h, ih]
      dsimp only [FBChat.find_participant]
      have h' : ¬(findFirstName c.participants m.sender).isSome = true := h
      simp [h']

theorem findFirstName_isSome :
    ∀ (l : List String) (n : String), (findFirstName l n).isSome = true ↔ n ∈ l := by
  intro l n
  induction l with
  | nil => simp [findFirstName]
  | cons p rest ih =>
    by_cases h : p = n
    · subst h; simp [findFirstName]
    · have h' : ¬n = p := fun hn => h hn.symm
      simp [findFirstName, h, h', ih]

theorem chatInv_add_messages {c : FBChat} (hc : chatInv c) (l : List FBMessage) :
    chatInv (c.add_messages l) := by
  intro m hm
  rw [add_messages_messages] at hm
  rw [add_messages_participants]
  rcases List.mem_append.mp hm with h | h
  · exact hc m h
  · obtain ⟨hmem, hpred⟩ := List.mem_filter.mp h
    have hs : m.sender ∈ c.participants := by
      simpa [FBChat.find_participant, findFirstName_isSome] using hpred
    exact ⟨m.sender, hs, rfl⟩

theorem mem_listModify {α : Type} (f : α → α) :
    ∀ (i : Nat) (l : List α) (x : α),
      x ∈ listModify f i l → x ∈ l ∨ ∃ y, y ∈ l ∧ x = f y := by
  intro i l
  induction l generalizing i with
  | nil => intro x hx; cases i <;> simp [listModify] at hx
  | cons a rest ih =>
    intro x hx
    cases i with
    | zero =>
      simp only [listModify, List.mem_cons] at hx
      rcases hx with h | h
      · exact Or.inr ⟨a, List.mem_cons_self a rest, h⟩
      · exact Or.inl (List.mem_cons_of_mem a h)
    | succ j =>
      simp only [listModify, List.mem_cons] at hx
      rcases hx with h | h
      · exact Or.inl (h ▸ List.mem_cons_self a rest)
      · rcases ih j x h with h' | ⟨y, hy, hxy⟩
        · exact Or.inl (List.mem_cons_of_mem a h')
        · exact Or.inr ⟨y, List.mem_cons_of_mem a hy, hxy⟩

theorem metaInv_updateChat {st : FBMetadata} (r : ChatRef) {f : FBChat → FBChat}
    (hst : metaInv st) (hf : ∀ c, chatInv c → chatInv (f c)) :
    metaInv (st.updateChat r f) := by
  obtain ⟨h1, h2⟩ := hst
  unfold FBMetadata.updateChat
  split
  · refine ⟨h1, ?_⟩
    intro c hc
    rcases mem_listModify f r.idx st.group_chats c hc with h | ⟨y, hy, hxy⟩
    · exact h2 c h
    · exact hxy ▸ hf y (h2 y hy)
  · refine ⟨?_, h2⟩
    intro c hc
    rcases mem_listModify f r.idx st.chats c hc with h | ⟨y, hy, hxy⟩
    · exact h1 c h
    · exact hxy ▸ hf y (h1 y hy)

theorem metaInv_load_message {st st' : FBMetadata} {m : RawMessage} {r : ChatRef}
    (hst : metaInv st) (h : st.load_message m r = Except.ok st') : metaInv st' := by
  obtain ⟨msg, rfl⟩ := load_message_ok h
  exact metaInv_updateChat r hst (fun c hc => chatInv_add_messages hc [msg])

theorem metaInv_loadMessagesAux (r : ChatRef) :
    ∀ (msgs : List RawMessage) (st : FBMetadata),
      metaInv st → metaInv (loadMessagesAux r st msgs).1 := by
  intro msgs
  induction msgs with
  | nil => intro st h; exact h
  | cons m rest ih =>
    intro st h
    simp only [loadMessagesAux]
    cases hlm : st.load_message m r with
    | error e => exact h
    | ok st' => exact ih st' (metaInv_load_message h hlm)

theorem metaInv_congr {st st' : FBMetadata} (hc : st'.chats = st.chats)
    (hg : st'.group_chats = st.group_chats) (h : metaInv st) : metaInv st' := by
  refine ⟨fun c hcm => h.1 c ?_, fun c hcm => h.2 c ?_⟩
  · rw [hc] at hcm; exact hcm
  · rw [hg] at hcm; exact hcm

theorem metaInv_addChatLoop (r : ChatRef) (g : Bool) (names : List String)
    (st : FBMetadata) (h : metaInv st) : metaInv (addChatLoop r g st names).1 :=
  metaInv_congr (addChatLoop_chats r g names st).1 (addChatLoop_chats r g names st).2 h

theorem metaInv_load_people (names : List String) (st : FBMetadata) (h : metaInv st) :
    metaInv (st.load_people names) :=
  metaInv_congr (load_people_chats names st).1 (load_people_chats names st).2 h

theorem metaInv_finishLoadChat {st : FBMetadata} (r : ChatRef) (g : Bool)
    (msgs : List RawMessage) (names : List String) (h : metaInv st) :
    metaInv (finishLoadChat st r g msgs names).1 := by
  unfold finishLoadChat
  cases hlm : loadMessagesAux r st msgs with
  | mk st1 err =>
    have h1 : metaInv st1 := by
      have := metaInv_loadMessagesAux r msgs st h
      rw [hlm] at this
      exact this
    cases err with
    | some e => exact h1
    | none =>
      dsimp only
      cases hacl : addChatLoop r g st1 names with
      | mk st2 err2 =>
        have h2 : metaInv st2 := by
          have := metaInv_addChatLoop r g names st1 h1
          rw [hacl] at this
          exact this
        cases err2 with
        | some e => exact h2
        | none => exact h2

theorem chatInv_nil (t : String) (ps : List String) : chatInv (FBChat.mk t ps []) :=
  fun m hm => absurd hm (List.not_mem_nil m)

theorem metaInv_append_direct {st : FBMetadata} (h : metaInv st) {c : FBChat}
    (hc : chatInv c) : metaInv { st with chats := st.chats ++ [c] } := by
  refine ⟨?_, h.2⟩
  intro x hx
  rcases List.mem_append.mp hx with hx' | hx'
  · exact h.1 x hx'
  · rw [List.mem_singleton.mp hx']
    exact hc

theorem metaInv_append_group {st : FBMetadata} (h : metaInv st) {c : FBChat}
    (hc : chatInv c) : metaInv { st with group_chats := st.group_chats ++ [c] } := by
  refine ⟨h.1, ?_⟩
  intro x hx
  rcases List.mem_append.mp hx with hx' | hx'
  · exact h.2 x hx'
  · rw [List.mem_singleton.mp hx']
    exact hc

theorem metaInv_load_chat {st : FBMetadata} (doc : RawDocument) (h : metaInv st) :
    metaInv (st.load_chat doc).1 := by
  unfold FBMetadata.load_chat
  cases doc.thread_type with
  | none => exact h
  | some tt =>
    dsimp only [FBMetadata.find_chat]
    cases findChatIdx doc.title (Option.map pySorted (some doc.participants))
        (if (if tt = "Regular" then false else true) = true
         then st.group_chats else st.chats) 0 with
    | some i => exact metaInv_finishLoadChat _ _ _ _ h
    | none =>
      dsimp only [Option.map_none']
      cases resolveAll st ((Option.map pySorted (some doc.participants)).getD []) with
      | none => exact h
      | some names =>
        dsimp only
        by_cases hg : (if tt = "Regular" then false else true) = true
        · rw [if_pos hg, if_pos hg]
          exact metaInv_finishLoadChat _ _ _ _ (metaInv_append_group h (chatInv_nil _ _))
        · rw [if_neg hg, if_neg hg]
          exact metaInv_finishLoadChat _ _ _ _ (metaInv_append_direct h (chatInv_nil _ _))

theorem metaInv_from_entry {st : FBMetadata} (doc : RawDocument) (h : metaInv st) :
    metaInv (st.from_entry doc).1 :=
  metaInv_load_chat doc (metaInv_load_people doc.participants st h)

theorem metaInv_loadEntries :
    ∀ (docs : List RawDocument) (st : FBMetadata),
      metaInv st → metaInv (loadEntries st docs) := by
  intro docs
  induction docs with
  | nil => intro st h; exact h
  | cons d ds ih =>
    intro st h
    simp only [loadEntries]
    cases hfe : st.from_entry d with
    | mk st' res =>
      have h' : metaInv st' := by
        have := metaInv_from_entry d h
        rw [hfe] at this
        exact this
      cases res with
      | error e => exact h'
      | ok r => exact ih st' h'

/-- C2: after any sequence of entry loads, every message in every chat of
the registry has a sender listed among that chat's participants; and
`add_messages` silently drops a message whose sender is not a current
participant, leaving the chat unchanged. -/
theorem claim_C2 :
    (∀ docs : List RawDocument, metaInv (loadEntries emptyMetadata docs)) ∧
    (∀ (c : FBChat) (msg : FBMessage), c.find_participant msg.sender = none →
      c.add_messages [msg] = c) := by
  constructor
  · intro docs
    exact metaInv_loadEntries docs emptyMetadata
      ⟨fun c hc => absurd hc (List.not_mem_nil c),
       fun c hc => absurd hc (List.not_mem_nil c)⟩
  · intro c msg h
    simp [FBChat.add_messages, h]

/-- Witness for C2: two loaded documents keep the invariant, and a message
from a non-participant is dropped. -/
theorem claim_C2_witness :
    metaInv (loadEntries emptyMetadata [sampleDoc, sampleGroupDoc]) ∧
    (FBChat.mk "Bob" ["Alice", "Bob"] []).add_messages
        [FBMessage.init "Mallory" 0 FBTypeOfMsg.Generic none none none none none] =
      FBChat.mk "Bob" ["Alice", "Bob"] [] :=
  ⟨claim_C2.1 [sampleDoc, sampleGroupDoc],
   claim_C2.2 (FBChat.mk "Bob" ["Alice", "Bob"] [])
     (FBMessage.init "Mallory" 0 FBTypeOfMsg.Generic none none none none none) rfl⟩

theorem listModify_comp {α : Type} (f g : α → α) :
    ∀ (i : Nat) (l : List α),
      listModify g i (listModify f i l) = listModify (fun x => g (f x)) i l := by
  intro i l
  induction l generalizing i with
  | nil => cases i <;> rfl
  | cons a rest ih =>
    cases i with
    | zero => rfl
    | succ j => simp [listModify, ih]

theorem listModify_eq_self {α : Type} {f : α → α} (h : ∀ x, f x = x) :
    ∀ (i : Nat) (l : List α), listModify f i l = l := by
  intro i l
  induction l generalizing i with
  | nil => cases i <;> rfl
  | cons a rest ih =>
    cases i with
    | zero => simp [listModify, h a]
    | succ j => simp [listModify, ih]

theorem listModify_congr {α : Type} {f g : α → α} (h : ∀ x, f x = g x) :
    ∀ (i : Nat) (l : List α), listModify f i l = listModify g i l := by
  intro i l
  induction l generalizing i with
  | nil => cases i <;> rfl
  | cons a rest ih =>
    cases i with
    | zero => simp [listModify, h a]
    | succ j => simp [listModify, ih]

theorem listModify_getD_self {α : Type} (f : α → α) :
    ∀ (i : Nat) (l : List α) (d : α), i < l.length →
      (listModify f i l).getD i d = f (l.getD i d) := by
  intro i l
  induction l generalizing i with
  | nil => intro d h; simp at h
  | cons a rest ih =>
    intro d h
    cases i with
    | zero => rfl
    | succ j =>
      simp only [listModify, List.getD_cons_succ]
      exact ih j d (by simpa using h)

theorem listModify_map {α β : Type} (f : α → α) (k : α → β) (h : ∀ x, k (f x) = k x) :
    ∀ (i : Nat) (l : List α), (listModify f i l).map k = l.map k := by
  intro i l
  induction l generalizing i with
  | nil => cases i <;> rfl
  | cons a rest ih =>
    cases i with
    | zero => simp [listModify, h a]
    | succ j => simp [listModify, ih]

theorem listModify_append_singleton {α : Type} (f : α → α) :
    ∀ (l : List α) (c : α), listModify f l.length (l ++ [c]) = l ++ [f c] := by
  intro l c
  induction l with
  | nil => rfl
  | cons a rest ih => simp [listModify, ih]

theorem findFirstPerson_name :
    ∀ (ps : List FBPerson) (n : String) (p : FBPerson),
      findFirstPerson ps n = some p → p.name = n := by
  intro ps
  induction ps with
  | nil => intro n p h; simp [findFirstPerson] at h
  | cons q rest ih =>
    intro n p h
    simp only [findFirstPerson] at h
    split at h
    · cases h
      assumption
    · exact ih n p h

theorem findFirstPerson_isSome :
    ∀ (ps : List FBPerson) (n : String),
      (findFirstPerson ps n).isSome = true ↔ n ∈ ps.map FBPerson.name := by
  intro ps n
  induction ps with
  | nil => simp [findFirstPerson]
  | cons p rest ih =>
    by_cases h : p.name = n
    · simp [findFirstPerson, h]
    · have h' : ¬n = p.name := fun hn => h hn.symm
      simp [findFirstPerson, h, h', ih]

theorem add_chat_name (p : FBPerson) (c : FBChat) (r : ChatRef) (g : Bool) :
    (p.add_chat c r g).name = p.name := by
  unfold FBPerson.add_chat
  split
  · split <;> rfl
  · rfl

theorem dictInsert_key_mem (d : List (String × ChatRef)) (k : String) (v : ChatRef) :
    (dictInsert d k v).any (fun e => e.1 = k) = true := by
  unfold dictInsert
  split
  · rename_i h
    rw [List.any_eq_true] at h ⊢
    obtain ⟨e, he, hk⟩ := h
    simp only [decide_eq_true_eq] at hk
    refine ⟨(k, v), ?_, by simp⟩
    have := List.mem_map_of_mem (fun e => if e.1 = k then (k, v) else e) he
    simpa [hk] using this
  · rw [List.any_eq_true]
    exact ⟨(k, v), List.mem_append_right d (List.mem_singleton_self _), by simp⟩

theorem dictInsert_entry (d : List (String × ChatRef)) (k : String) (v : ChatRef) :
    ∀ e ∈ dictInsert d k v, e.1 = k → e = (k, v) := by
  unfold dictInsert
  split
  · intro e he hk
    rw [List.mem_map] at he
    obtain ⟨e', he', rfl⟩ := he
    by_cases h' : e'.1 = k
    · simp [h']
    · simp only [if_neg h'] at hk ⊢
      exact absurd hk h'
  · rename_i hany
    intro e he hk
    rw [List.mem_append] at he
    rcases he with he | he
    · exfalso
      apply hany
      rw [List.any_eq_true]
      exact ⟨e, he, by simp [hk]⟩
    · simpa using he

theorem map_id_of_entries {d : List (String × ChatRef)} {k : String} {v : ChatRef}
    (h : ∀ e ∈ d, e.1 = k → e = (k, v)) :
    d.map (fun e => if e.1 = k then (k, v) else e) = d := by
  induction d with
  | nil => rfl
  | cons a rest ih =>
    simp only [List.map_cons]
    have hr : rest.map (fun e => if e.1 = k then (k, v) else e) = rest :=
      ih (fun e he hk => h e (List.mem_cons_of_mem a he) hk)
    by_cases h' : a.1 = k
    · rw [hr, if_pos h', ← h a (List.mem_cons_self a rest) h']
    · rw [hr, if_neg h']

theorem dictInsert_idem (d : List (String × ChatRef)) (k : String) (v : ChatRef) :
    dictInsert (dictInsert d k v) k v = dictInsert d k v := by
  have h1 := dictInsert_key_mem d k v
  have h2 := dictInsert_entry d k v
  generalize hd : dictInsert d k v = d' at h1 h2 ⊢
  unfold dictInsert
  rw [if_pos h1]
  exact map_id_of_entries h2

theorem add_chat_stable (p : FBPerson) (c c' : FBChat) (r : ChatRef) (g : Bool)
    (ht : c'.title = c.title) (hp : c'.participants = c.participants) :
    (p.add_chat c r g).add_chat c' r g = p.add_chat c r g := by
  cases g
  all_goals
    unfold FBPerson.add_chat FBChat.find_participant
    rw [hp, ht]
    by_cases hfp : (findFirstName c.participants p.name).isSome
  · simp [hfp, dictInsert_idem]
  · simp [hfp]
  · simp [hfp, dictInsert_idem]
  · simp [hfp]

theorem updateFirst_some_names {f : FBPerson → FBPerson} (hf : ∀ p, (f p).name = p.name) :
    ∀ (ps ps' : List FBPerson) (n : String), updateFirst n f ps = some ps' →
      ps'.map FBPerson.name = ps.map FBPerson.name := by
  intro ps
  induction ps with
  | nil => intro ps' n h; simp [updateFirst] at h
  | cons p rest ih =>
    intro ps' n h
    simp only [updateFirst] at h
    split at h
    · cases h
      simp [hf]
    · cases hu : updateFirst n f rest with
      | none => rw [hu] at h; simp at h
      | some l' =>
        rw [hu] at h
        simp only [Option.map_some', Option.some.injEq] at h
        subst h
        simp [ih l' n hu]

theorem updateFirst_findFirst_same {f : FBPerson → FBPerson}
    (hf : ∀ p, (f p).name = p.name) :
    ∀ (ps ps' : List FBPerson) (n : String), updateFirst n f ps = some ps' →
      findFirstPerson ps' n = (findFirstPerson ps n).map f := by
  intro ps
  induction ps with
  | nil => intro ps' n h; simp [updateFirst] at h
  | cons p rest ih =>
    intro ps' n h
    simp only [updateFirst] at h
    split at h
    · rename_i hn
      cases h
      simp [findFirstPerson, hf, hn]
    · rename_i hn
      cases hu : updateFirst n f rest with
      | none => rw [hu] at h; simp at h
      | some l' =>
        rw [hu] at h
        simp only [Option.map_some', Option.some.injEq] at h
        subst h
        simp [findFirstPerson, hn, ih l' n hu]

theorem updateFirst_findFirst_other {f : FBPerson → FBPerson}
    (hf : ∀ p, (f p).name = p.name) :
    ∀ (ps ps' : List FBPerson) (n n' : String), n ≠ n' →
      updateFirst n' f ps = some ps' →
      findFirstPerson ps' n = findFirstPerson ps n := by
  intro ps
  induction ps with
  | nil => intro ps' n n' _ h; simp [updateFirst] at h
  | cons p rest ih =>
    intro ps' n n' hne h
    simp only [updateFirst] at h
    split at h
    · rename_i hn
      cases h
      have h1 : ¬(f p).name = n := by
        rw [hf, hn]
        exact fun hc => hne hc.symm
      have h2 : ¬p.name = n := by
        rw [hn]
        exact fun hc => hne hc.symm
      simp [findFirstPerson, h1, h2]
    · rename_i hn
      cases hu : updateFirst n' f rest with
      | none => rw [hu] at h; simp at h
      | some l' =>
        rw [hu] at h
        simp only [Option.map_some', Option.some.injEq] at h
        subst h
        by_cases hpn : p.name = n
        · simp [findFirstPerson, hpn]
        · simp [findFirstPerson, hpn, ih l' n n' hne hu]

theorem updateFirst_eq_self (f : FBPerson → FBPerson) :
    ∀ (ps : List FBPerson) (n : String) (p : FBPerson),
      findFirstPerson ps n = some p → f p = p → updateFirst n f ps = some ps := by
  intro ps
  induction ps with
  | nil => intro n p h; simp [findFirstPerson] at h
  | cons q rest ih =>
    intro n p h hfp
    simp only [findFirstPerson] at h
    by_cases hq : q.name = n
    · rw [if_pos hq] at h
      cases h
      simp [updateFirst, hq, hfp]
    · rw [if_neg hq] at h
      simp [updateFirst, hq, ih n p h hfp]

theorem addChatLoop_names (r : ChatRef) (g : Bool) :
    ∀ (names : List String) (st : FBMetadata),
      (addChatLoop r g st names).1.persons.map FBPerson.name =
        st.persons.map FBPerson.name := by
  intro names
  induction names with
  | nil => intro st; rfl
  | cons n rest ih =>
    intro st
    simp only [addChatLoop]
    cases hu : updateFirst n (fun p => p.add_chat (st.getChat r) r g) st.persons with
    | none => rfl
    | some ps =>
      rw [ih]
      exact updateFirst_some_names (fun p => add_chat_name p _ r g) st.persons ps n hu

theorem load_people_persons_ext :
    ∀ (names : List String) (st : FBMetadata),
      ∃ newps, (st.load_people names).persons = st.persons ++ newps := by
  intro names
  induction names with
  | nil => intro st; exact ⟨[], by simp [FBMetadata.load_people]⟩
  | cons n rest ih =>
    intro st
    simp only [FBMetadata.load_people]
    split
    · exact ih st
    · obtain ⟨newps, hn⟩ := ih { st with persons := st.persons ++ [FBPerson.mk n [] []] }
      exact ⟨[FBPerson.mk n [] []] ++ newps, by simp [hn]⟩

theorem find_person_isSome_iff (st : FBMetadata) (n : String) :
    (st.find_person n).isSome = true ↔ n ∈ st.persons.map FBPerson.name :=
  findFirstPerson_isSome st.persons n

theorem load_people_registers :
    ∀ (names : List String) (st : FBMetadata) (n : String), n ∈ names →
      ((st.load_people names).find_person n).isSome = true := by
  intro names
  induction names with
  | nil => intro st n h; exact absurd h (List.not_mem_nil n)
  | cons m rest ih =>
    intro st n h
    rcases List.mem_cons.mp h with rfl | h'
    · simp only [FBMetadata.load_people]
      split
      · rename_i hfound
        obtain ⟨newps, hn⟩ := load_people_persons_ext rest st
        rw [find_person_isSome_iff, hn, List.map_append]
        exact List.mem_append_left _ ((find_person_isSome_iff st n).mp hfound)
      · obtain ⟨newps, hn⟩ :=
          load_people_persons_ext rest { st with persons := st.persons ++ [FBPerson.mk n [] []] }
        rw [find_person_isSome_iff, hn]
        simp
    · simp only [FBMetadata.load_people]
      split
      · exact ih st n h'
      · exact ih _ n h'

theorem load_people_noop :
    ∀ (names : List String) (st : FBMetadata),
      (∀ n ∈ names, (st.find_person n).isSome = true) → st.load_people names = st := by
  intro names
  induction names with
  | nil => intro st _; rfl
  | cons n rest ih =>
    intro st h
    simp only [FBMetadata.load_people]
    rw [if_pos (h n (List.mem_cons_self n rest))]
    exact ih st (fun m hm => h m (List.mem_cons_of_mem n hm))

theorem resolveAll_eq :
    ∀ (l : List String) (st : FBMetadata) (names : List String),
      resolveAll st l = some names → names = l := by
  intro l
  induction l with
  | nil =>
    intro st names h
    simp only [resolveAll, Option.some.injEq] at h
    exact h.symm
  | cons n rest ih =>
    intro st names h
    simp only [resolveAll] at h
    cases hfp : st.find_person n with
    | none => rw [hfp] at h; simp at h
    | some p =>
      rw [hfp] at h
      cases hra : resolveAll st rest with
      | none => rw [hra] at h; simp at h
      | some l' =>
        rw [hra] at h
        simp only [Option.map_some', Option.some.injEq] at h
        subst h
        rw [findFirstPerson_name st.persons n p hfp, ih st l' hra]

theorem resolveAll_of_registered :
    ∀ (l : List String) (st : FBMetadata),
      (∀ n ∈ l, (st.find_person n).isSome = true) → resolveAll st l = some l := by
  intro l
  induction l with
  | nil => intro st _; rfl
  | cons n rest ih =>
    intro st h
    simp only [resolveAll]
    cases hfp : st.find_person n with
    | none =>
      have hmem := h n (List.mem_cons_self n rest)
      rw [hfp] at hmem
      simp at hmem
    | some p =>
      rw [ih st (fun m hm => h m (List.mem_cons_of_mem n hm))]
      simp [findFirstPerson_name st.persons n p hfp]

theorem sideList_def (st : FBMetadata) (g : Bool) :
    (if g then st.group_chats else st.chats) = sideList st g := rfl

theorem sideList_congr {st st' : FBMetadata} (hc : st'.chats = st.chats)
    (hg : st'.group_chats = st.group_chats) (b : Bool) :
    sideList st' b = sideList st b := by
  cases b <;> simp [sideList, hc, hg]

theorem sideList_updateChat (st : FBMetadata) (r : ChatRef) (f : FBChat → FBChat) :
    sideList (st.updateChat r f) r.isGroup = listModify f r.idx (sideList st r.isGroup) := by
  unfold FBMetadata.updateChat sideList
  cases hg : r.isGroup <;> simp [hg]

theorem sideList_updateChat_other (st : FBMetadata) (r : ChatRef) (f : FBChat → FBChat) :
    sideList (st.updateChat r f) (!r.isGroup) = sideList st (!r.isGroup) := by
  unfold FBMetadata.updateChat sideList
  cases hg : r.isGroup <;> simp [hg]

theorem getChat_eq (st : FBMetadata) (r : ChatRef) :
    st.getChat r = (sideList st r.isGroup).getD r.idx (FBChat.mk "" [] []) := rfl

theorem chatKey_msgs (c : FBChat) (M : List FBMessage) :
    chatKey { c with messages := M } = chatKey c := rfl

theorem load_message_ok' {st st' : FBMetadata} {m : RawMessage} {r : ChatRef}
    (h : st.load_message m r = Except.ok st') :
    ∃ t, m.type = some t ∧
      st' = st.updateChat r (fun c => c.add_messages [convertMessageOk m t]) := by
  unfold FBMetadata.load_message convertMessage at h
  cases hty : m.type with
  | none => rw [hty] at h; exact absurd h (by simp)
  | some t =>
    rw [hty] at h
    simp only [Except.ok.injEq] at h
    exact ⟨t, rfl, h.symm⟩

theorem step_chat_eq (m : RawMessage) (t : String) (ht : m.type = some t)
    (rest : List RawMessage) (c : FBChat) :
    FBChat.mk (c.add_messages [convertMessageOk m t]).title
        (c.add_messages [convertMessageOk m t]).participants
        ((c.add_messages [convertMessageOk m t]).messages ++
          acceptedBlock (c.add_messages [convertMessageOk m t]).participants rest) =
      FBChat.mk c.title c.participants
        (c.messages ++ acceptedBlock c.participants (m :: rest)) := by
  have hp := add_messages_participants [convertMessageOk m t] c
  have htl := add_messages_title [convertMessageOk m t] c
  have hm := add_messages_messages [convertMessageOk m t] c
  rw [htl, hp, hm]
  simp only [FBChat.mk.injEq, true_and]
  simp only [acceptedBlock, ht]
  by_cases hg : ((c.find_participant (convertMessageOk m t).sender).isSome) = true
  · have hg' : (findFirstName c.participants (convertMessageOk m t).sender).isSome = true := hg
    simp [FBChat.find_participant, hg, hg', List.filter_cons, List.append_assoc]
  · have hg' : ¬(findFirstName c.participants (convertMessageOk m t).sender).isSome = true := hg
    simp [FBChat.find_participant, hg, hg', List.filter_cons]

theorem loadMessagesAux_effect (r : ChatRef) :
    ∀ (msgs : List RawMessage) (st st1 : FBMetadata),
      loadMessagesAux r st msgs = (st1, none) →
      sideList st1 r.isGroup =
        listModify
          (fun c => { c with messages := c.messages ++ acceptedBlock c.participants msgs })
          r.idx (sideList st r.isGroup) ∧
      sideList st1 (!r.isGroup) = sideList st (!r.isGroup) ∧
      st1.persons = st.persons := by
  intro msgs
  induction msgs with
  | nil =>
    intro st st1 h
    simp only [loadMessagesAux, Prod.mk.injEq] at h
    obtain ⟨rfl, -⟩ := h
    refine ⟨?_, rfl, rfl⟩
    rw [listModify_eq_self]
    intro x
    show ({ x with messages := x.messages ++ [] } : FBChat) = x
    rw [List.append_nil]
  | cons m rest ih =>
    intro st st1 h
    simp only [loadMessagesAux] at h
    cases hlm : st.load_message m r with
    | error e => rw [hlm] at h; exact absurd h (by simp)
    | ok st' =>
      rw [hlm] at h
      dsimp only at h
      obtain ⟨t, ht, hst'⟩ := load_message_ok' hlm
      subst hst'
      obtain ⟨h1, h2, h3⟩ := ih _ st1 h
      refine ⟨?_, ?_, ?_⟩
      · rw [h1, sideList_updateChat, listModify_comp]
        apply listModify_congr
        intro c
        exact step_chat_eq m t ht rest c
      · rw [h2, sideList_updateChat_other]
      · rw [h3, updateChat_persons]

theorem updateFirst_some_found {f : FBPerson → FBPerson} :
    ∀ (ps ps' : List FBPerson) (n : String), updateFirst n f ps = some ps' →
      ∃ p, findFirstPerson ps n = some p := by
  intro ps
  induction ps with
  | nil => intro ps' n h; simp [updateFirst] at h
  | cons q rest ih =>
    intro ps' n h
    simp only [updateFirst] at h
    split at h
    · rename_i hq
      exact ⟨q, by simp [findFirstPerson, hq]⟩
    · rename_i hq
      cases hu : updateFirst n f rest with
      | none => rw [hu] at h; simp at h
      | some l' =>
        obtain ⟨p, hp⟩ := ih l' n hu
        exact ⟨p, by simp [findFirstPerson, hq, hp]⟩

theorem finishLoadChat_ok_destruct {st st' : FBMetadata} {r r' : ChatRef} {g : Bool}
    {msgs : List RawMessage} {names : List String}
    (h : finishLoadChat st r g msgs names = (st', Except.ok r')) :
    r' = r ∧ ∃ stB, loadMessagesAux r st msgs = (stB, none) ∧
      addChatLoop r g stB names = (st', none) := by
  unfold finishLoadChat at h
  cases hlm : loadMessagesAux r st msgs with
  | mk st1 err =>
    rw [hlm] at h
    cases err with
    | some e => exact absurd h (by simp)
    | none =>
      dsimp only at h
      cases hacl : addChatLoop r g st1 names with
      | mk st2 err2 =>
        rw [hacl] at h
        cases err2 with
        | some e => exact absurd h (by simp)
        | none =>
          simp only [Prod.mk.injEq, Except.ok.injEq] at h
          obtain ⟨rfl, rfl⟩ := h
          exact ⟨rfl, st1, rfl, hacl⟩

theorem addChatLoop_noop (r : ChatRef) (g : Bool) :
    ∀ (names : List String) (st : FBMetadata),
      (∀ n ∈ names, ∃ p, findFirstPerson st.persons n = some p ∧
        p.add_chat (st.getChat r) r g = p) →
      addChatLoop r g st names = (st, none) := by
  intro names
  induction names with
  | nil => intro st _; rfl
  | cons n rest ih =>
    intro st h
    obtain ⟨p, hfind, hstable⟩ := h n (List.mem_cons_self n rest)
    simp only [addChatLoop]
    rw [updateFirst_eq_self (fun p => p.add_chat (st.getChat r) r g) st.persons n p hfind
      hstable]
    exact ih st (fun m hm => h m (List.mem_cons_of_mem n hm))

theorem addChatLoop_processed (r : ChatRef) (g : Bool) :
    ∀ (names : List String) (st st1 : FBMetadata),
      addChatLoop r g st names = (st1, none) →
      (∀ (n : String) (q : FBPerson),
        findFirstPerson st.persons n = some (q.add_chat (st.getChat r) r g) →
        ∃ q' : FBPerson, findFirstPerson st1.persons n =
          some (q'.add_chat (st.getChat r) r g)) ∧
      (∀ n ∈ names, ∃ q : FBPerson, findFirstPerson st1.persons n =
        some (q.add_chat (st.getChat r) r g)) := by
  intro names
  induction names with
  | nil =>
    intro st st1 h
    simp only [addChatLoop, Prod.mk.injEq] at h
    obtain ⟨rfl, -⟩ := h
    exact ⟨fun n q hf => ⟨q, hf⟩, fun n hn => absurd hn (List.not_mem_nil n)⟩
  | cons n rest ih =>
    intro st st1 h
    simp only [addChatLoop] at h
    cases hu : updateFirst n (fun p => p.add_chat (st.getChat r) r g) st.persons with
    | none => rw [hu] at h; exact absurd h (by simp)
    | some ps =>
      rw [hu] at h
      dsimp only at h
      have hf : ∀ p : FBPerson,
          ((fun (p : FBPerson) => p.add_chat (st.getChat r) r g) p).name = p.name :=
        fun p => add_chat_name p _ r g
      have ihr := ih { st with persons := ps } st1 h
      constructor
      · intro n₀ q hq
        by_cases hn : n₀ = n
        · subst hn
          have : findFirstPerson ps n₀ =
              (findFirstPerson st.persons n₀).map
                (fun p => p.add_chat (st.getChat r) r g) :=
            updateFirst_findFirst_same hf st.persons ps n₀ hu
          rw [hq] at this
          simp only [Option.map_some'] at this
          exact ihr.1 n₀ _ this
        · have : findFirstPerson ps n₀ = findFirstPerson st.persons n₀ :=
            updateFirst_findFirst_other hf st.persons ps n₀ n hn hu
          rw [hq] at this
          exact ihr.1 n₀ q this
      · intro n₀ hn₀
        rcases List.mem_cons.mp hn₀ with rfl | hmem
        · obtain ⟨p, hp⟩ := updateFirst_some_found st.persons ps n₀ hu
          have : findFirstPerson ps n₀ =
              (findFirstPerson st.persons n₀).map
                (fun p => p.add_chat (st.getChat r) r g) :=
            updateFirst_findFirst_same hf st.persons ps n₀ hu
          rw [hp] at this
          simp only [Option.map_some'] at this
          exact ihr.1 n₀ p this
        · exact ihr.2 n₀ hmem

theorem findChatIdx_congr (t : String) (ps : Option (List String)) :
    ∀ (l₁ l₂ : List FBChat), l₁.map chatKey = l₂.map chatKey →
      ∀ i, findChatIdx t ps l₁ i = findChatIdx t ps l₂ i := by
  intro l₁
  induction l₁ with
  | nil =>
    intro l₂ h i
    cases l₂ with
    | nil => rfl
    | cons c₂ rest₂ => simp at h
  | cons c rest ih =>
    intro l₂ h i
    cases l₂ with
    | nil => simp at h
    | cons c₂ rest₂ =>
      simp only [List.map_cons, List.cons.injEq] at h
      obtain ⟨hk, hrest⟩ := h
      have ht : c.title = c₂.title := congrArg Prod.fst hk
      have hps : pySorted c.participants = pySorted c₂.participants := congrArg Prod.snd hk
      simp only [findChatIdx]
      rw [ht, hps]
      by_cases hcond : (c₂.title = t ∧ (ps = none ∨ ps = some (pySorted c₂.participants)))
      · rw [if_pos hcond, if_pos hcond]
      · rw [if_neg hcond, if_neg hcond]
        exact ih rest₂ hrest (i + 1)

theorem findChatIdx_append_none (t : String) (ps : Option (List String)) :
    ∀ (l l' : List FBChat) (i : Nat), findChatIdx t ps l i = none →
      findChatIdx t ps (l ++ l') i = findChatIdx t ps l' (i + l.length) := by
  intro l
  induction l with
  | nil => intro l' i _; simp [findChatIdx]
  | cons c rest ih =>
    intro l' i h
    simp only [findChatIdx] at h ⊢
    split at h
    · exact absurd h (by simp)
    · rename_i hcond
      rw [if_neg hcond]
      have he : rest.append l' = rest ++ l' := rfl
      rw [he, ih l' (i + 1) h]
      congr 1
      simp only [List.length_cons]
      omega

theorem getD_append_singleton {α : Type} (l : List α) (x d : α) :
    (l ++ [x]).getD l.length d = x := by
  induction l with
  | nil => rfl
  | cons a rest ih => simp [ih]

theorem appendChat_sideList (st : FBMetadata) (c : FBChat) (g : Bool) :
    sideList (if g then { st with group_chats := st.group_chats ++ [c] }
              else { st with chats := st.chats ++ [c] }) g = sideList st g ++ [c] ∧
    sideList (if g then { st with group_chats := st.group_chats ++ [c] }
              else { st with chats := st.chats ++ [c] }) (!g) = sideList st (!g) ∧
    (if g then { st with group_chats := st.group_chats ++ [c] }
     else { st with chats := st.chats ++ [c] } : FBMetadata).persons = st.persons := by
  cases g <;> simp [sideList]

theorem getChat_mk (st : FBMetadata) (g : Bool) (i : Nat) :
    st.getChat (ChatRef.mk g i) = (sideList st g).getD i (FBChat.mk "" [] []) := rfl

/-- Loading a document a second time: when every participant is already
registered, the same chat (at index `i` on side `g`) is found again, the
accepted message block is appended to it once more, and the persons list is
left untouched because every participant's dict already holds this chat
under this title. -/
theorem second_load_lemma (doc : RawDocument) (tt : String) (G : Bool) (i : Nat)
    (ps : List String)
    (htt : doc.thread_type = some tt)
    (hG : G = (if tt = "Regular" then false else true))
    (hps : ps = pySorted doc.participants)
    (st1 st2 : FBMetadata) (r2 : ChatRef)
    (hreg1 : ∀ n ∈ doc.participants, (st1.find_person n).isSome = true)
    (hlenB : i < (sideList st1 G).length)
    (hfound2 : findChatIdx doc.title (some ps) (sideList st1 G) 0 = some i)
    (hproc : ∀ n ∈ ps, ∃ q : FBPerson, findFirstPerson st1.persons n =
      some (q.add_chat (st1.getChat (ChatRef.mk G i)) (ChatRef.mk G i) G))
    (hx : ∃ X : FBChat, st1.getChat (ChatRef.mk G i) =
      FBChat.mk X.title X.participants
        (X.messages ++ acceptedBlock X.participants doc.messages))
    (h2 : st1.from_entry doc = (st2, Except.ok r2)) :
    st2.persons = st1.persons ∧ r2 = ChatRef.mk G i ∧
    (st2.getChat (ChatRef.mk G i)).messages =
      (st1.getChat (ChatRef.mk G i)).messages ++
        acceptedBlock (st1.getChat (ChatRef.mk G i)).participants doc.messages ∧
    ∃ pre, (st1.getChat (ChatRef.mk G i)).messages =
      pre ++ acceptedBlock (st1.getChat (ChatRef.mk G i)).participants doc.messages := by
  unfold FBMetadata.from_entry at h2
  rw [load_people_noop doc.participants st1 hreg1] at h2
  unfold FBMetadata.load_chat at h2
  rw [htt] at h2
  simp only [FBMetadata.find_chat, Option.map_some', Option.getD_some, sideList_def] at h2
  rw [← hG, ← hps, hfound2] at h2
  simp only [Option.map_some'] at h2
  obtain ⟨hr2, stB2, hlm2, hacl2⟩ := finishLoadChat_ok_destruct h2
  obtain ⟨hB1, hB2, hB3⟩ := loadMessagesAux_effect (ChatRef.mk G i) doc.messages st1 stB2 hlm2
  dsimp only at hB1 hB2 hB3
  have hgetB2 : stB2.getChat (ChatRef.mk G i) =
      FBChat.mk (st1.getChat (ChatRef.mk G i)).title
        (st1.getChat (ChatRef.mk G i)).participants
        ((st1.getChat (ChatRef.mk G i)).messages ++
          acceptedBlock (st1.getChat (ChatRef.mk G i)).participants doc.messages) := by
    rw [getChat_mk, hB1, listModify_getD_self _ _ _ _ hlenB, getChat_mk]
  have hnoop : addChatLoop (ChatRef.mk G i) G stB2 ps = (stB2, none) := by
    apply addChatLoop_noop
    intro n hn
    obtain ⟨q, hq⟩ := hproc n hn
    refine ⟨q.add_chat (st1.getChat (ChatRef.mk G i)) (ChatRef.mk G i) G, ?_, ?_⟩
    · rw [hB3]; exact hq
    · apply add_chat_stable
      · rw [hgetB2]
      · rw [hgetB2]
  rw [hacl2] at hnoop
  simp only [Prod.mk.injEq, and_true] at hnoop
  subst hnoop
  refine ⟨hB3, hr2, ?_, ?_⟩
  · rw [hgetB2]
  · obtain ⟨X, hX⟩ := hx
    exact ⟨X.messages, by rw [hX]⟩

/-- C6: loading the same entry twice does not duplicate Person entities —
the second load leaves the persons list exactly as it was — but does
duplicate Messages: the second load resolves the same chat and appends the
document's accepted message block to its message list again (the first load
had already appended that same block). -/
theorem claim_C6 (st0 : FBMetadata) (doc : RawDocument) (st1 st2 : FBMetadata)
    (r1 r2 : ChatRef)
    (h1 : st0.from_entry doc = (st1, Except.ok r1))
    (h2 : st1.from_entry doc = (st2, Except.ok r2)) :
    st2.persons = st1.persons ∧ r2 = r1 ∧
    (st2.getChat r1).messages =
      (st1.getChat r1).messages ++
        acceptedBlock (st1.getChat r1).participants doc.messages ∧
    ∃ pre, (st1.getChat r1).messages =
      pre ++ acceptedBlock (st1.getChat r1).participants doc.messages := by
  unfold FBMetadata.from_entry at h1
  cases htt : doc.thread_type with
  | none =>
    unfold FBMetadata.load_chat at h1
    rw [htt] at h1
    exact absurd h1 (by simp)
  | some tt =>
    unfold FBMetadata.load_chat at h1
    rw [htt] at h1
    simp only [FBMetadata.find_chat, Option.map_some', Option.getD_some, sideList_def] at h1
    set G : Bool := (if tt = "Regular" then false else true) with hG
    set ps : List String := pySorted doc.participants with hps
    set stA : FBMetadata := st0.load_people doc.participants with hstA
    have hreg0 : ∀ n ∈ doc.participants, (stA.find_person n).isSome = true := by
      intro n hn
      rw [hstA]
      exact load_people_registers doc.participants st0 n hn
    cases hf1 : findChatIdx doc.title (some ps) (sideList stA G) 0 with
    | some i =>
      rw [hf1] at h1
      simp only [Option.map_some'] at h1
      obtain ⟨hr1, stB, hlm1, hacl1⟩ := finishLoadChat_ok_destruct h1
      subst hr1
      obtain ⟨hB1, hB2, hB3⟩ :=
        loadMessagesAux_effect (ChatRef.mk G i) doc.messages stA stB hlm1
      dsimp only at hB1 hB2 hB3
      have hch1 : st1.chats = stB.chats ∧ st1.group_chats = stB.group_chats := by
        have hh := addChatLoop_chats (ChatRef.mk G i) G ps stB
        rw [hacl1] at hh
        exact hh
      have hside1 : sideList st1 G = sideList stB G := sideList_congr hch1.1 hch1.2 G
      have hlen : i < (sideList stA G).length := by
        have hb := findChatIdx_lt doc.title (some ps) (sideList stA G) 0 i hf1
        omega
      have hlenB : i < (sideList st1 G).length := by
        rw [hside1, hB1, listModify_length]
        exact hlen
      have hnames1 : st1.persons.map FBPerson.name = stA.persons.map FBPerson.name := by
        have hn := addChatLoop_names (ChatRef.mk G i) G ps stB
        rw [hacl1] at hn
        rw [hn, hB3]
      have hreg1 : ∀ n ∈ doc.participants, (st1.find_person n).isSome = true := by
        intro n hn
        rw [find_person_isSome_iff, hnames1, ← find_person_isSome_iff]
        exact hreg0 n hn
      have hkey : (sideList st1 G).map chatKey = (sideList stA G).map chatKey := by
        rw [hside1, hB1]
        exact listModify_map
          (fun c => { c with
            messages := c.messages ++ acceptedBlock c.participants doc.messages })
          chatKey (fun c => rfl) i (sideList stA G)
      have hfound2 : findChatIdx doc.title (some ps) (sideList st1 G) 0 = some i := by
        rw [findChatIdx_congr doc.title (some ps) _ _ hkey 0]
        exact hf1
      have hgst1 : st1.getChat (ChatRef.mk G i) =
          FBChat.mk ((sideList stA G).getD i (FBChat.mk "" [] [])).title
            ((sideList stA G).getD i (FBChat.mk "" [] [])).participants
            (((sideList stA G).getD i (FBChat.mk "" [] [])).messages ++
              acceptedBlock
                ((sideList stA G).getD i (FBChat.mk "" [] [])).participants
                doc.messages) := by
        rw [getChat_mk, hside1, hB1, listModify_getD_self _ _ _ _ hlen]
      have hgetB : stB.getChat (ChatRef.mk G i) = st1.getChat (ChatRef.mk G i) := by
        rw [getChat_mk, getChat_mk, hside1]
      have hproc : ∀ n ∈ ps, ∃ q : FBPerson, findFirstPerson st1.persons n =
          some (q.add_chat (st1.getChat (ChatRef.mk G i)) (ChatRef.mk G i) G) := by
        have hp := (addChatLoop_processed (ChatRef.mk G i) G ps stB st1 hacl1).2
        intro n hn
        obtain ⟨q, hq⟩ := hp n hn
        rw [hgetB] at hq
        exact ⟨q, hq⟩
      have hx : ∃ X : FBChat, st1.getChat (ChatRef.mk G i) =
          FBChat.mk X.title X.participants
            (X.messages ++ acceptedBlock X.participants doc.messages) :=
        ⟨(sideList stA G).getD i (FBChat.mk "" [] []), hgst1⟩
      exact second_load_lemma doc tt G i ps htt hG hps st1 st2 r2 hreg1 hlenB hfound2
        hproc hx h2
    | none =>
      rw [hf1] at h1
      simp only [Option.map_none'] at h1
      cases hres : resolveAll stA ps with
      | none => rw [hres] at h1; exact absurd h1 (by simp)
      | some names =>
        rw [hres] at h1
        dsimp only at h1
        have hnames : names = ps := resolveAll_eq ps stA names hres
        subst hnames
        have hidx : (if G = true then stA.group_chats.length else stA.chats.length) =
            (sideList stA G).length := by
          cases G <;> rfl
        rw [hidx] at h1
        have hApp := appendChat_sideList stA (FBChat.mk doc.title ps []) G
        obtain ⟨hr1, stB, hlm1, hacl1⟩ := finishLoadChat_ok_destruct h1
        subst hr1
        obtain ⟨hB1, hB2, hB3⟩ :=
          loadMessagesAux_effect (ChatRef.mk G (sideList stA G).length) doc.messages
            _ stB hlm1
        dsimp only at hB1 hB2 hB3
        have hsideB : sideList stB G = sideList stA G ++
            [FBChat.mk doc.title ps ([] ++ acceptedBlock ps doc.messages)] := by
          rw [hB1, hApp.1]
          exact listModify_append_singleton _ (sideList stA G) (FBChat.mk doc.title ps [])
        have hch1 : st1.chats = stB.chats ∧ st1.group_chats = stB.group_chats := by
          have hh := addChatLoop_chats (ChatRef.mk G (sideList stA G).length) G ps stB
          rw [hacl1] at hh
          exact hh
        have hside1 : sideList st1 G = sideList stB G := sideList_congr hch1.1 hch1.2 G
        have hlenB : (sideList stA G).length < (sideList st1 G).length := by
          rw [hside1, hsideB]
          simp
        have hnames1 : st1.persons.map FBPerson.name = stA.persons.map FBPerson.name := by
          have hn := addChatLoop_names (ChatRef.mk G (sideList stA G).length) G ps stB
          rw [hacl1] at hn
          rw [hn, hB3, hApp.2.2]
        have hreg1 : ∀ n ∈ doc.participants, (st1.find_person n).isSome = true := by
          intro n hn
          rw [find_person_isSome_iff, hnames1, ← find_person_isSome_iff]
          exact hreg0 n hn
        have hps2 : pySorted ps = ps := by
          rw [hps]
          exact pySorted_idem doc.participants
        have hfound2 : findChatIdx doc.title (some ps) (sideList st1 G) 0 =
            some (sideList stA G).length := by
          rw [hside1, hsideB,
            findChatIdx_append_none doc.title (some ps) (sideList stA G) _ 0 hf1]
          simp only [findChatIdx]
          rw [if_pos ⟨trivial, Or.inr (by rw [hps2])⟩, Nat.zero_add]
        have hgst1 : st1.getChat (ChatRef.mk G (sideList stA G).length) =
            FBChat.mk doc.title ps ([] ++ acceptedBlock ps doc.messages) := by
          rw [getChat_mk, hside1, hsideB, getD_append_singleton]
        have hgetB : stB.getChat (ChatRef.mk G (sideList stA G).length) =
            st1.getChat (ChatRef.mk G (sideList stA G).length) := by
          rw [getChat_mk, getChat_mk, hside1]
        have hproc : ∀ n ∈ ps, ∃ q : FBPerson, findFirstPerson st1.persons n =
            some (q.add_chat (st1.getChat (ChatRef.mk G (sideList stA G).length))
              (ChatRef.mk G (sideList stA G).length) G) := by
          have hp := (addChatLoop_processed (ChatRef.mk G (sideList stA G).length) G
            ps stB st1 hacl1).2
          intro n hn
          obtain ⟨q, hq⟩ := hp n hn
          rw [hgetB] at hq
          exact ⟨q, hq⟩
        have hx : ∃ X : FBChat,
            st1.getChat (ChatRef.mk G (sideList stA G).length) =
            FBChat.mk X.title X.participants
              (X.messages ++ acceptedBlock X.participants doc.messages) :=
          ⟨FBChat.mk doc.title ps [], hgst1⟩
        exact second_load_lemma doc tt G (sideList stA G).length ps htt hG hps st1 st2 r2
          hreg1 hlenB hfound2 hproc hx h2

/-- Witness for C6: loading `sampleDoc` twice into an empty registry keeps
the persons list fixed, resolves the same chat, and appends the accepted
message block a second time. -/
theorem claim_C6_witness :
    ((emptyMetadata.from_entry sampleDoc).1.from_entry sampleDoc).1.persons =
      (emptyMetadata.from_entry sampleDoc).1.persons ∧
    ChatRef.mk false 0 = ChatRef.mk false 0 ∧
    (((emptyMetadata.from_entry sampleDoc).1.from_entry sampleDoc).1.getChat
        (ChatRef.mk false 0)).messages =
      ((emptyMetadata.from_entry sampleDoc).1.getChat (ChatRef.mk false 0)).messages ++
        acceptedBlock
          ((emptyMetadata.from_entry sampleDoc).1.getChat
            (ChatRef.mk false 0)).participants
          sampleDoc.messages ∧
    ∃ pre,
      ((emptyMetadata.from_entry sampleDoc).1.getChat (ChatRef.mk false 0)).messages =
        pre ++ acceptedBlock
          ((emptyMetadata.from_entry sampleDoc).1.getChat
            (ChatRef.mk false 0)).participants
          sampleDoc.messages :=
  claim_C6 emptyMetadata sampleDoc _ _ (ChatRef.mk false 0) (ChatRef.mk false 0) rfl rfl
